import Mathlib

/-!
Shallow embedding of the population-dynamics core of the virus-sandbox game:
the rule compiler `VirusBuilder.get_virus_capabilities` and the turn engine
`ViralSimulation.process_turn` from `simulation.py`, together with the shared
constants from `constants.py`.

Modelling conventions:
* Python `float` values become `ℚ`; the builtin `round(x, n)` (banker's
  rounding, half to even) becomes `pyRound2` / `pyRound4` on rationals.
* Python `dict[str, int]` becomes an insertion-ordered association list
  (`Dict`), with `.get(k, 0)` as `dget`, key update preserving position, and
  `del` as removal.
* `random.random()` becomes a stream `g : ℕ → ℚ` of draws together with an
  explicit position counter threaded through every operation; a Bernoulli
  trial `random.random() < p` at position `s` is `g s < p`.
* Stateful methods become functions from explicit state to state.
-/

namespace ViralSim

/-- Python's builtin `round(q)` on rationals: round half to even. -/
def roundHalfEven (q : ℚ) : ℤ :=
  let f : ℤ := ⌊q⌋
  let frac : ℚ := q - f
  if frac < 1/2 then f
  else if 1/2 < frac then f + 1
  else if f % 2 = 0 then f else f + 1

/-- Python `round(q, 2)`. -/
def pyRound2 (q : ℚ) : ℚ := (roundHalfEven (q * 100) : ℚ) / 100

/-- Python `round(q, 4)`. -/
def pyRound4 (q : ℚ) : ℚ := (roundHalfEven (q * 10000) : ℚ) / 10000

/-- Association-list lookup (Python `dict` access by key; keys are unique). -/
def alookup {α : Type} (k : String) : List (String × α) → Option α
  | [] => none
  | p :: rest => if p.1 = k then some p.2 else alookup k rest

/-- A Python `dict[str, int]` in insertion order with unique keys. -/
abbrev Dict := List (String × ℤ)

/-- Python `d.get(k, 0)`. -/
def dget (d : Dict) (k : String) : ℤ := (alookup k d).getD 0

/-- Python `d[k] = v`: update in place when the key exists, else append. -/
def dset (d : Dict) (k : String) (v : ℤ) : Dict :=
  if (alookup k d).isSome then d.map (fun p => if p.1 = k then (k, v) else p)
  else d ++ [(k, v)]

/-- Python `del d[k]`. -/
def ddel (d : Dict) (k : String) : Dict := d.filter (fun p => p.1 ≠ k)

/-! Constants from `constants.py`. -/

def DEFAULT_STARTING_ENTITY_COUNT : ℤ := 10

def VICTORY_ENTITY_THRESHOLD : ℤ := 10000

def DEFAULT_DEGRADATION_RATE : ℚ := 1/20

def INTERFERON_MIN : ℚ := 0

def INTERFERON_MAX : ℚ := 100

def INTERFERON_DECAY_PER_TURN : ℚ := 1

/-- 0.0125 from `constants.py`. -/
def INTERFERON_RNA_DEGRADATION_BONUS : ℚ := 125/10000

/-- 0.0075 from `constants.py`. -/
def INTERFERON_PROTEIN_DEGRADATION_BONUS : ℚ := 75/10000

/-- 0.005 from `constants.py`. -/
def INTERFERON_DNA_DEGRADATION_BONUS : ℚ := 50/10000

/-! Data model: rules, effects, genes (`data_models.py` dictionaries,
flattened to the fields `simulation.py` actually reads). -/

/-- One entry of a rule's `inputs` list: `{entity, count, consumed}`. -/
structure InputSpec where
  entity : String
  count : ℤ
  consumed : Bool
deriving DecidableEq

/-- One entry of a rule's `outputs` list: `{entity, count}`. -/
structure OutputSpec where
  entity : String
  count : ℤ
deriving DecidableEq

/-- A transition rule dictionary. `interferon_amount` is `none` when the key
is absent from the dictionary. -/
structure Rule where
  name : String
  rule_type : String
  inputs : List InputSpec
  outputs : List OutputSpec
  probability : ℚ
  interferon_amount : Option ℚ
deriving DecidableEq

/-- The `modification` dictionary of a `modify_transition` effect; each field
is `none` when the corresponding key is absent. -/
structure Modification where
  probability_multiplier : Option ℚ
  interferon_multiplier : Option ℚ
deriving DecidableEq

/-- A gene effect. `add_transition` covers the source effect types
`add_transition` and `add_production`, which the compiler treats identically;
`other_effect` covers every remaining effect type (e.g. `enable_entity`),
which both compiler passes ignore. -/
inductive Effect where
  | add_transition (rule : Rule)
  | modify_transition (rule_name : String) (modification : Modification)
  | other_effect
deriving DecidableEq

/-- A gene: its name and its list of effects. -/
structure Gene where
  name : String
  effects : List Effect
deriving DecidableEq

/-- The compiled output of `VirusBuilder.get_virus_capabilities`.
`possible_entities` is a Python `set` in the source, so only membership in it
is meaningful; it is kept here as a deduplicated list. -/
structure Blueprint where
  starting_entities : Dict
  possible_entities : List String
  transition_rules : List Rule
  entity_degradation_rates : List (String × ℚ)
deriving DecidableEq

/-! Rule compiler (`VirusBuilder.get_virus_capabilities`). -/

/-- Ingestion of an added rule in pass 1: `rule.copy()` plus rounding of
`interferon_amount` to 2 decimals when that key is present. -/
def ingestRule (r : Rule) : Rule :=
  { r with interferon_amount := r.interferon_amount.map (fun a => pyRound2 a) }

/-- Pass-1 handling of one effect: append the ingested rule of an
`add_transition` effect, ignore everything else. -/
def addEffectRules (ef : Effect) (acc : List Rule) : List Rule :=
  match ef with
  | Effect.add_transition r => acc ++ [ingestRule r]
  | _ => acc

/-- Pass 1 over one gene's effect list. -/
def pass1Gene (gene : Gene) (acc : List Rule) : List Rule :=
  gene.effects.foldl (fun a e => addEffectRules e a) acc

/-- FIRST PASS: collect every `add_transition` rule of every selected gene,
in selection order. -/
def pass1Rules (genes : List Gene) : List Rule :=
  genes.foldl (fun a g => pass1Gene g a) []

/-- The entity ids mentioned by a rule's inputs and outputs, in source order. -/
def ruleEntities (r : Rule) : List String :=
  r.inputs.map (fun i => i.entity) ++ r.outputs.map (fun o => o.entity)

/-- The `available_entities` set: the starter entity plus every entity of
every added rule (a Python `set`; only membership matters, deduplicated). -/
def collectEntities (starter : String) (genes : List Gene) : List String :=
  (genes.foldl (fun acc gene =>
    gene.effects.foldl (fun acc2 ef =>
      match ef with
      | Effect.add_transition r => acc2 ++ ruleEntities r
      | _ => acc2) acc) [starter]).dedup

/-- In-place application of one `modify_transition` modification to a rule:
`probability = min(1.0, probability * multiplier)` when a probability
multiplier is present; `interferon_amount = round(current * multiplier, 2)`
when an interferon multiplier is present and the current amount is > 0. -/
def applyModification (m : Modification) (r : Rule) : Rule :=
  let r1 := match m.probability_multiplier with
    | some pm => { r with probability := min 1 (r.probability * pm) }
    | none => r
  match m.interferon_multiplier with
  | some im =>
    let cur := r1.interferon_amount.getD 0
    if 0 < cur then { r1 with interferon_amount := some (pyRound2 (cur * im)) }
    else r1
  | none => r1

/-- Apply a modification to the first rule in the list whose `name` matches
(the source's linear scan with `break`); a dangling name is a silent no-op. -/
def modifyFirst (n : String) (m : Modification) : List Rule → List Rule
  | [] => []
  | r :: rest =>
    if r.name = n then applyModification m r :: rest
    else r :: modifyFirst n m rest

/-- Pass-2 handling of one effect: apply a `modify_transition` effect to the
working rule list, ignore everything else. -/
def modifyEffectStep (ef : Effect) (acc : List Rule) : List Rule :=
  match ef with
  | Effect.modify_transition n m => modifyFirst n m acc
  | _ => acc

/-- Pass 2 over one gene's effect list. -/
def pass2Gene (gene : Gene) (acc : List Rule) : List Rule :=
  gene.effects.foldl (fun a e => modifyEffectStep e a) acc

/-- SECOND PASS: apply every `modify_transition` effect of every selected
gene, in selection order, to the working rule list. -/
def pass2Rules (genes : List Gene) (rules : List Rule) : List Rule :=
  genes.foldl (fun a g => pass2Gene g a) rules

/-- `VirusBuilder.get_virus_capabilities`: two compilation passes, then
degradation-rate resolution (catalog value, defaulting to 0.05 when the
catalog has no entry or no catalog is attached), then the starting
population `{starter: startingCount}`. It performs no validation. -/
def get_virus_capabilities (db : Option (String → Option ℚ)) (starter : String)
    (startingCount : ℤ) (genes : List Gene) : Blueprint :=
  let rules := pass2Rules genes (pass1Rules genes)
  let avail := collectEntities starter genes
  let rates := avail.map (fun e =>
    (e, match db with
        | none => DEFAULT_DEGRADATION_RATE
        | some f => (f e).getD DEFAULT_DEGRADATION_RATE))
  { starting_entities := [(starter, startingCount)]
    possible_entities := avail
    transition_rules := rules
    entity_degradation_rates := rates }

/-! Simulation engine (`ViralSimulation`). -/

/-- The immutable part of a `ViralSimulation` instance: the compiled rules,
the compiled per-entity degradation rates, and the entity-class lookup of the
attached `db_manager` (`none` models `db_manager is None`; the inner lookup
returns `none` when `get_entity` finds nothing). -/
structure SimConfig where
  transition_rules : List Rule
  degradation_rates : List (String × ℚ)
  entity_class : Option (String → Option String)

/-- The mutable state of a `ViralSimulation` instance. -/
structure SimState where
  entities : Dict
  interferon_level : ℚ
  turn_count : ℤ
deriving DecidableEq

/-- Engine construction from a blueprint (`ViralSimulation.__init__`). -/
def ViralSimulation_init (bp : Blueprint) : SimState :=
  { entities := bp.starting_entities
    interferon_level := INTERFERON_MIN
    turn_count := 0 }

/-- The simulation configuration an engine built from a blueprint carries. -/
def simConfigOf (bp : Blueprint) (db : Option (String → Option String)) :
    SimConfig :=
  { transition_rules := bp.transition_rules
    degradation_rates := bp.entity_degradation_rates
    entity_class := db }

/-- A structured change record `{type, entity, count, rule_name}`. -/
inductive ChangeType where
  | consumed
  | produced
  | degraded
deriving DecidableEq

/-- One event record appended to the per-turn `changes` list. -/
structure Change where
  ctype : ChangeType
  entity : String
  count : ℤ
  rule_name : String
deriving DecidableEq

/-- The number of successes among `n` Bernoulli trials drawn from the random
stream `g` starting at position `s`: `sum(1 for _ in range(n) if random.random() < p)`. -/
def countSuccesses (g : ℕ → ℚ) (s n : ℕ) (p : ℚ) : ℕ :=
  (List.range n).countP (fun i => decide (g (s + i) < p))

/-- `ViralSimulation._calculate_interferon_degradation_bonus`; `ec` is the
engine's `db_manager` entity-class lookup. -/
def interferonBonus (ec : Option (String → Option String)) (level : ℚ)
    (e : String) : ℚ :=
  if level ≤ 0 then 0
  else
    match ec with
    | none => 0
    | some getEntity =>
      match getEntity e with
      | none => 0
      | some cls =>
        let c := cls.toLower
        let mult : ℚ :=
          if c = "rna" then INTERFERON_RNA_DEGRADATION_BONUS
          else if c = "protein" then INTERFERON_PROTEIN_DEGRADATION_BONUS
          else if c = "dna" then INTERFERON_DNA_DEGRADATION_BONUS
          else 0
        pyRound4 (level * mult)

/-- Degradation of one population entry: skip non-positive counts, compute
`min(1.0, base_rate * (1 + bonus))`, skip when that rate is ≤ 0 (drawing no
trials), otherwise draw one trial per unit and emit a `degraded` change when
at least one unit degraded. -/
def degradeEntry (rates : List (String × ℚ)) (ec : Option (String → Option String))
    (level : ℚ) (g : ℕ → ℚ) (e : String) (cnt : ℤ) (s : ℕ) : Option Change × ℕ :=
  if cnt ≤ 0 then (none, s)
  else
    let base := (alookup e rates).getD DEFAULT_DEGRADATION_RATE
    let rate := min 1 (base * (1 + interferonBonus ec level e))
    if rate ≤ 0 then (none, s)
    else
      let d := countSuccesses g s cnt.toNat rate
      (if 0 < d then some ⟨ChangeType.degraded, e, (d : ℤ), "Natural degradation"⟩
       else none,
       s + cnt.toNat)

/-- `ViralSimulation.apply_degradation`: iterate the population entries in
insertion order, threading the random stream position. -/
def apply_degradation (rates : List (String × ℚ)) (ec : Option (String → Option String))
    (level : ℚ) (g : ℕ → ℚ) : Dict → ℕ → List Change × ℕ
  | [], s => ([], s)
  | (e, cnt) :: rest, s =>
    let hd := degradeEntry rates ec level g e cnt s
    let tl := apply_degradation rates ec level g rest hd.2
    (hd.1.toList ++ tl.1, tl.2)

/-- Accumulator-passing core of `get_max_applications_from_state`: `none`
models the `float('inf')` sentinel, the final `0` its fallback; the scan
returns `0` as soon as an input's availability is below its required count.
The source divides with Python `//` (floor division, `Int.fdiv`); a
`required_count` of 0 would raise `ZeroDivisionError` in the source, so every
use here keeps input counts ≥ 1. -/
def maxAppsAux (st : Dict) : List InputSpec → Option ℤ → ℤ
  | [], none => 0
  | [], some m => m
  | i :: rest, acc =>
    let available := dget st i.entity
    if available < i.count then 0
    else
      let q := Int.fdiv available i.count
      let acc' : Option ℤ :=
        if i.consumed then some (match acc with | none => q | some m => min m q)
        else some (match acc with | none => q | some m => min m q)
      maxAppsAux st rest acc'

/-- `ViralSimulation.get_max_applications_from_state`. The source's
`consumed` and non-`consumed` branches are syntactically identical; the
embedding keeps the branch on `i.consumed` to mirror that. -/
def get_max_applications_from_state (r : Rule) (st : Dict) : ℤ :=
  maxAppsAux st r.inputs none

/-- The change records emitted by a rule that applied `k` times: one
`consumed` record per consumed input, then one `produced` record per output,
with counts scaled by `k`. -/
def ruleChanges (r : Rule) (k : ℤ) : List Change :=
  (r.inputs.filter (fun i => i.consumed)).map
    (fun i => ⟨ChangeType.consumed, i.entity, k * i.count, r.name⟩)
  ++ r.outputs.map (fun o => ⟨ChangeType.produced, o.entity, k * o.count, r.name⟩)

/-- The trial stage of `apply_rule_to_state`: draw `n` Bernoulli trials for
the known rule types `per_entity` and `per_pair` (whose branches are
identical in the source) and none for an unknown `rule_type`; returns the
number of successes and the new random stream position. -/
def ruleTrialResult (g : ℕ → ℚ) (r : Rule) (n : ℕ) (s : ℕ) : ℕ × ℕ :=
  if r.rule_type = "per_entity" then (countSuccesses g s n r.probability, s + n)
  else if r.rule_type = "per_pair" then (countSuccesses g s n r.probability, s + n)
  else (0, s)

/-- `ViralSimulation.apply_rule_to_state`: cap by `max_applications`, draw
that many Bernoulli(`probability`) trials for the known rule types (an
unknown `rule_type` draws nothing and applies 0 times), and emit the change
records when at least one application succeeded. -/
def apply_rule_to_state (g : ℕ → ℚ) (r : Rule) (st : Dict) (s : ℕ) :
    List Change × ℕ :=
  let m := get_max_applications_from_state r st
  if m = 0 then ([], s)
  else
    let res := ruleTrialResult g r m.toNat s
    if res.1 = 0 then ([], res.2)
    else (ruleChanges r (res.1 : ℤ), res.2)

/-- Python `acc[k] = acc.get(k, 0) + c` on an insertion-ordered dict. -/
def alAdd (acc : List (String × ℤ)) (k : String) (c : ℤ) : List (String × ℤ) :=
  if (alookup k acc).isSome then
    acc.map (fun p => if p.1 = k then (p.1, p.2 + c) else p)
  else acc ++ [(k, c)]

/-- One step of aggregating changes of one type into a count dictionary. -/
def aggStep (t : ChangeType) (acc : List (String × ℤ)) (ch : Change) :
    List (String × ℤ) :=
  if ch.ctype = t then alAdd acc ch.entity ch.count else acc

/-- Aggregate the counts of all changes of one type by entity, in first-seen
order (the dictionary-building loops of `apply_all_changes` and
`_estimate_applications_from_changes`). -/
def aggregateType (cs : List Change) (t : ChangeType) : List (String × ℤ) :=
  cs.foldl (aggStep t) []

/-- Python `min` over a nonempty integer list (the empty case is unreachable
in the source and mapped to 0). -/
def minList : List ℤ → ℤ
  | [] => 0
  | x :: xs => xs.foldl min x

/-- The `produced`-records fallback branch of
`_estimate_applications_from_changes`. -/
def estimateFromProduced (r : Rule) (cs : List Change) : ℤ :=
  let produced_counts := aggregateType cs ChangeType.produced
  if r.outputs ≠ [] ∧ produced_counts ≠ [] then
    minList (r.outputs.map (fun o =>
      Int.fdiv ((alookup o.entity produced_counts).getD 0) (max 1 o.count)))
  else 0

/-- The `apps_from_consumed` stage of
`_estimate_applications_from_changes`: `none` models Python `None` (inputs
empty, no consumed inputs, or no consumed records); otherwise the minimum
over the consumed inputs of the aggregated consumed count floor-divided by
`max(1, per_application_count)`. -/
def appsFromConsumed (r : Rule) (cs : List Change) : Option ℤ :=
  if r.inputs = [] then none
  else if r.inputs.filter (fun i => i.consumed) ≠ [] ∧
      aggregateType cs ChangeType.consumed ≠ [] then
    some (minList ((r.inputs.filter (fun i => i.consumed)).map (fun i =>
      Int.fdiv ((alookup i.entity (aggregateType cs ChangeType.consumed)).getD 0)
        (max 1 i.count))))
  else none

/-- `ViralSimulation._estimate_applications_from_changes`: floor-divide the
aggregated consumed counts by each consumed input's per-application count and
take the minimum; on a falsy result (`None` or 0) fall back to the produced
records. The guard `if apps_from_consumed:` is Python truthiness, so a
nonzero (even negative) value is returned as-is. -/
def estimate_applications_from_changes (r : Rule) (cs : List Change) : ℤ :=
  match appsFromConsumed r cs with
  | some a => if a ≠ 0 then a else estimateFromProduced r cs
  | none => estimateFromProduced r cs

/-- `ViralSimulation._process_rule_interferon_effects`: 0 when the rule's
interferon amount is ≤ 0 (or absent), otherwise the estimated number of
applications times the amount, rounded to `INTERFERON_PRECISION = 2`. -/
def process_rule_interferon_effects (r : Rule) (cs : List Change) : ℚ :=
  let amount := r.interferon_amount.getD 0
  if amount ≤ 0 then 0
  else pyRound2 ((estimate_applications_from_changes r cs : ℚ) * amount)

/-- One working-copy debit `d[k] -= c; if d[k] <= 0: del d[k]`. The returned
Bool is a ghost observation: `true` exactly when the value the source stores
before its `<= 0` check is negative. On an absent key the source raises
`KeyError`; every use in this development keeps the key present. -/
def subDelStep (d : Dict) (k : String) (c : ℤ) : Dict × Bool :=
  let v := dget d k - c
  (if v ≤ 0 then ddel d k else dset d k v, decide (v < 0))

/-- One step of a working-copy update loop: debit a change of the selected
type, skip every other change. -/
def changeStep (t : ChangeType) (acc : Dict × Bool) (ch : Change) : Dict × Bool :=
  if ch.ctype = t then
    let r := subDelStep acc.1 ch.entity ch.count
    (r.1, acc.2 || r.2)
  else acc

/-- The working-copy update loops of `process_turn`: debit every change of
the given type, in order, accumulating the ghost negativity flag. -/
def applyChangesOfType (t : ChangeType) (w : Dict) (cs : List Change) :
    Dict × Bool :=
  cs.foldl (changeStep t) (w, false)

/-- The loop state of the rule phase of `process_turn`: the working
population copy, the accumulated change list, the interferon accrued this
turn, the random stream position, and the ghost negativity flag. -/
structure LoopState where
  working : Dict
  changes : List Change
  accrued : ℚ
  pos : ℕ
  neg : Bool

/-- One iteration of the rule loop of `process_turn`: apply the rule to the
working copy, append its changes, accrue its interferon when positive, and
debit its consumed amounts from the working copy. -/
def ruleStep (g : ℕ → ℚ) (ls : LoopState) (r : Rule) : LoopState :=
  let res := apply_rule_to_state g r ls.working ls.pos
  let add := process_rule_interferon_effects r res.1
  let upd := applyChangesOfType ChangeType.consumed ls.working res.1
  { working := upd.1
    changes := ls.changes ++ res.1
    accrued := if 0 < add then ls.accrued + add else ls.accrued
    pos := res.2
    neg := ls.neg || upd.2 }

/-- The rule phase of `process_turn`: iterate the compiled rules in order. -/
def ruleLoop (g : ℕ → ℚ) (rules : List Rule) (ls : LoopState) : LoopState :=
  rules.foldl (ruleStep g) ls

/-- Python `if k in d: d[k] -= c; if d[k] <= 0: del d[k]` (the commit loops
for degraded and consumed aggregates in `apply_all_changes`). -/
def commitSub (d : Dict) (k : String) (c : ℤ) : Dict :=
  if (alookup k d).isSome then
    let v := dget d k - c
    if v ≤ 0 then ddel d k else dset d k v
  else d

/-- Python `if k in d: d[k] += c else: d[k] = c` (the produced commit loop of
`apply_all_changes`). -/
def commitAdd (d : Dict) (k : String) (c : ℤ) : Dict :=
  if (alookup k d).isSome then dset d k (dget d k + c) else d ++ [(k, c)]

/-- `ViralSimulation.apply_all_changes`: aggregate the turn's changes by type
and entity, then commit degraded, then consumed, then produced deltas to the
authoritative population, removing entities whose count drops to ≤ 0. -/
def apply_all_changes (ents : Dict) (cs : List Change) : Dict :=
  let degraded := aggregateType cs ChangeType.degraded
  let consumed := aggregateType cs ChangeType.consumed
  let produced := aggregateType cs ChangeType.produced
  let e1 := degraded.foldl (fun d p => commitSub d p.1 p.2) ents
  let e2 := consumed.foldl (fun d p => commitSub d p.1 p.2) e1
  produced.foldl (fun d p => commitAdd d p.1 p.2) e2

/-- A population dictionary is well-formed when every stored count is
strictly positive and its keys are unique (the committed-population
invariant of the spec). -/
def PosDict (d : Dict) : Prop :=
  (∀ p ∈ d, 0 < p.2) ∧ (d.map Prod.fst).Nodup

/-- A compiled rule is well-formed in the sense of the spec's data model:
input and output counts are ≥ 1 and the consumed inputs name pairwise
distinct entities. -/
def WellFormedRule (r : Rule) : Prop :=
  (∀ i ∈ r.inputs, 1 ≤ i.count) ∧
  ((r.inputs.filter (fun i => i.consumed)).map (fun i => i.entity)).Nodup ∧
  (∀ o ∈ r.outputs, 1 ≤ o.count)

/-- The outcome of one `process_turn` call: the new engine state, the
structured change list, the final random stream position, the interferon
accrued this turn, and the ghost flag recording whether any working-copy
count was negative at some point during the turn's computation. -/
structure TurnOutput where
  state : SimState
  changes : List Change
  rng_pos : ℕ
  interferon_accrued : ℚ
  neg_working : Bool

/-- `ViralSimulation.process_turn`: degradation on the turn-start snapshot,
working-copy debits of the degraded amounts, the rule loop over the working
copy, the interferon decay-then-accrue update, the commit via
`apply_all_changes`, and the turn-counter increment. -/
def process_turn (cfg : SimConfig) (g : ℕ → ℚ) (s0 : ℕ) (st : SimState) :
    TurnOutput :=
  let starting := st.entities
  let dres := apply_degradation cfg.degradation_rates cfg.entity_class
    st.interferon_level g starting s0
  let wres := applyChangesOfType ChangeType.degraded starting dres.1
  let ls := ruleLoop g cfg.transition_rules
    { working := wres.1, changes := dres.1, accrued := 0, pos := dres.2,
      neg := wres.2 }
  let l1 := max INTERFERON_MIN (st.interferon_level - INTERFERON_DECAY_PER_TURN)
  let l2 := if 0 < ls.accrued then min INTERFERON_MAX (l1 + ls.accrued) else l1
  { state := { entities := apply_all_changes starting ls.changes
               interferon_level := l2
               turn_count := st.turn_count + 1 }
    changes := ls.changes
    rng_pos := ls.pos
    interferon_accrued := ls.accrued
    neg_working := ls.neg }

/-- `ViralSimulation.is_simulation_over`: the population is empty. -/
def is_simulation_over (st : SimState) : Bool := st.entities.isEmpty

/-- The number of `add_transition` effects across a gene selection (used to
state that compilation retains every contributed rule). -/
def addEffectCount (genes : List Gene) : ℕ :=
  (genes.map (fun gene =>
    (gene.effects.filter (fun ef =>
      match ef with
      | Effect.add_transition _ => true
      | _ => false)).length)).sum

/-- The probability carried by an `add_transition` effect (0 for any other
effect); used to state hypotheses about the rules genes contribute. -/
def effectAddProb (ef : Effect) : ℚ :=
  match ef with
  | Effect.add_transition r => r.probability
  | _ => 0

/-! Concrete instances used by individual claims. -/

/-- The `A → B` rule of the end-to-end scenario: per_entity, one consumed
unit of `A` in, one unit of `B` out, probability 1. -/
def c1Rule : Rule := ⟨"r", "per_entity", [⟨"A", 1, true⟩], [⟨"B", 1⟩], 1, none⟩

/-- The end-to-end scenario blueprint: starting population `{A: 10}`, the
single `A → B` rule, and degradation rate 0 for every entity. -/
def c1Blueprint : Blueprint :=
  ⟨[("A", 10)], ["A", "B"], [c1Rule], [("A", 0), ("B", 0)]⟩

/-- The engine configuration of the end-to-end scenario (no catalog). -/
def c1Cfg : SimConfig := simConfigOf c1Blueprint none

/-- The freshly constructed engine state of the end-to-end scenario. -/
def c1Start : SimState := ViralSimulation_init c1Blueprint

/-- An engine configuration used to exercise `process_turn` on a terminal
(extinct) state: one ordinary rule, zero degradation rates, no catalog. -/
def c2Cfg : SimConfig :=
  ⟨[⟨"r", "per_entity", [⟨"A", 1, true⟩], [⟨"B", 1⟩], 1, none⟩],
   [("A", 0), ("B", 0)], none⟩

/-- An extinct engine state: empty population, feedback level 5, turn 3. -/
def c2State : SimState := ⟨[], 5, 3⟩

/-- A rule whose two consumed inputs name the same entity `X` (1 unit and 2
units per application). -/
def c5Rule : Rule :=
  ⟨"r", "per_entity", [⟨"X", 1, true⟩, ⟨"X", 2, true⟩], [⟨"Y", 1⟩], 1, none⟩

/-- Engine configuration holding only `c5Rule`, with zero degradation. -/
def c5Cfg : SimConfig := ⟨[c5Rule], [("X", 0), ("Y", 0)], none⟩

/-- Population `{X: 5}` at feedback 0, turn 0. -/
def c5State : SimState := ⟨[("X", 5)], 0, 0⟩

/-! Helper lemmas. -/

theorem countSuccesses_eq_of_all_lt (g : ℕ → ℚ) (s n : ℕ) (p : ℚ)
    (h : ∀ i, g i < p) : countSuccesses g s n p = n := by
  unfold countSuccesses
  have hall : ∀ a ∈ List.range n, (fun i => decide (g (s + i) < p)) a = true :=
    fun a _ => decide_eq_true (h (s + a))
  rw [List.countP_eq_length.mpr hall, List.length_range]

theorem countSuccesses_le (g : ℕ → ℚ) (s n : ℕ) (p : ℚ) :
    countSuccesses g s n p ≤ n := by
  unfold countSuccesses
  exact le_trans (List.countP_le_length _) (le_of_eq (List.length_range n))

/-! Claim theorems. -/

/-- C1: for a blueprint with starting population `{A: 10}`, a single
per_entity rule consuming 1 `A` and producing 1 `B` with probability 1.0,
and every degradation rate 0, one `process_turn` call commits the population
`{B: 10}` with `A` absent, for every state of the random source (every draw
of `random.random()` lies in `[0, 1)`). -/
theorem c1_one_turn_converts_all_A_to_B (g : ℕ → ℚ) (s0 : ℕ)
    (h : ∀ n, 0 ≤ g n ∧ g n < 1) :
    (process_turn c1Cfg g s0 c1Start).state.entities = [("B", 10)] := by
  have hc : countSuccesses g s0 10 1 = 10 :=
    countSuccesses_eq_of_all_lt g s0 10 1 (fun i => (h i).2)
  simp [process_turn, apply_degradation, degradeEntry, interferonBonus,
        applyChangesOfType, changeStep, ruleLoop, ruleStep, apply_rule_to_state,
        ruleTrialResult,
        get_max_applications_from_state, maxAppsAux, dget, alookup, hc,
        ruleChanges, process_rule_interferon_effects,
        estimate_applications_from_changes, appsFromConsumed,
        estimateFromProduced, aggregateType,
        aggStep, alAdd, minList, subDelStep, ddel, dset,
        apply_all_changes, commitSub, commitAdd, c1Cfg, c1Start, c1Blueprint,
        c1Rule, simConfigOf, ViralSimulation_init, DEFAULT_DEGRADATION_RATE,
        INTERFERON_MIN, INTERFERON_MAX, INTERFERON_DECAY_PER_TURN]

/-- Witness for C1 at the all-zero random stream. -/
theorem c1_witness :
    (∀ n : ℕ, 0 ≤ (fun _ : ℕ => (0 : ℚ)) n ∧ (fun _ : ℕ => (0 : ℚ)) n < 1) ∧
    (process_turn c1Cfg (fun _ => 0) 0 c1Start).state.entities = [("B", 10)] :=
  ⟨fun _ => ⟨le_refl 0, by norm_num⟩,
   c1_one_turn_converts_all_A_to_B (fun _ => 0) 0
     (fun _ => ⟨le_refl 0, by norm_num⟩)⟩

end ViralSim

namespace ViralSim

theorem maxAppsAux_empty : ∀ (inputs : List InputSpec) (acc : Option ℤ),
    acc = none ∨ acc = some 0 → maxAppsAux [] inputs acc = 0 := by
  intro inputs
  induction inputs with
  | nil => rintro acc (rfl | rfl) <;> rfl
  | cons i rest ih =>
    rintro acc (rfl | rfl) <;>
    · simp only [maxAppsAux, dget, alookup, Option.getD_none]
      by_cases hc : (0 : ℤ) < i.count
      · simp [hc]
      · simp only [hc, if_false, Int.zero_fdiv, ite_self]
        exact ih _ (Or.inr rfl)

theorem get_max_applications_empty (r : Rule) :
    get_max_applications_from_state r [] = 0 :=
  maxAppsAux_empty r.inputs none (Or.inl rfl)

theorem apply_rule_to_state_empty (g : ℕ → ℚ) (r : Rule) (s : ℕ) :
    apply_rule_to_state g r [] s = ([], s) := by
  unfold apply_rule_to_state
  rw [get_max_applications_empty]
  simp

theorem estimate_applications_nil (r : Rule) :
    estimate_applications_from_changes r [] = 0 := by
  unfold estimate_applications_from_changes appsFromConsumed estimateFromProduced
  simp [aggregateType]

theorem process_rule_interferon_nil (r : Rule) :
    process_rule_interferon_effects r [] = 0 := by
  unfold process_rule_interferon_effects
  rw [estimate_applications_nil]
  by_cases h : r.interferon_amount.getD 0 ≤ 0
  · simp [h]
  · simp only [h, if_false, Int.cast_zero, zero_mul]
    norm_num [pyRound2, roundHalfEven]

theorem ruleStep_empty (g : ℕ → ℚ) (r : Rule) (cs : List Change) (a : ℚ)
    (s : ℕ) (b : Bool) :
    ruleStep g ⟨[], cs, a, s, b⟩ r = ⟨[], cs, a, s, b⟩ := by
  unfold ruleStep
  rw [apply_rule_to_state_empty]
  simp [process_rule_interferon_nil, applyChangesOfType]

theorem ruleLoop_empty (g : ℕ → ℚ) (rules : List Rule) (cs : List Change)
    (a : ℚ) (s : ℕ) (b : Bool) :
    ruleLoop g rules ⟨[], cs, a, s, b⟩ = ⟨[], cs, a, s, b⟩ := by
  induction rules with
  | nil => rfl
  | cons r rest ih =>
    unfold ruleLoop at ih ⊢
    rw [List.foldl_cons, ruleStep_empty]
    exact ih

/-- C2 (corrected): the claim as stated is false — `process_turn` itself is
never refused and is not a no-op in a terminal state: at the concrete
extinct state `c2State` (empty population, feedback 5, turn 3) a further
call changes the engine state (the turn counter becomes 4 and the feedback
signal decays to 4). -/
theorem c2_counterexample :
    (process_turn c2Cfg (fun _ => 0) 0 c2State).state ≠ c2State := by
  intro h
  have h1 : (process_turn c2Cfg (fun _ => 0) 0 c2State).state.turn_count = 4 := rfl
  rw [h] at h1
  exact absurd h1 (by decide)

/-- C2 (amended): once the population is empty (Extinct), a further
`process_turn` call keeps the population empty and emits no events, but it
is not refused: it still increments the turn counter and applies the
feedback decay `max(0, f - 1)`. (The engine itself performs no victory
check at all; refusing further turns in terminal states is done by the
presentation layer.) -/
theorem c2_amended_extinct_tick (cfg : SimConfig) (g : ℕ → ℚ) (s0 : ℕ)
    (st : SimState) (h : st.entities = []) :
    (process_turn cfg g s0 st).state.entities = [] ∧
    (process_turn cfg g s0 st).state.turn_count = st.turn_count + 1 ∧
    (process_turn cfg g s0 st).state.interferon_level
      = max 0 (st.interferon_level - 1) ∧
    (process_turn cfg g s0 st).changes = [] := by
  obtain ⟨ents, lvl, tc⟩ := st
  simp only at h
  subst h
  unfold process_turn
  simp [apply_degradation, applyChangesOfType, ruleLoop_empty,
        apply_all_changes, aggregateType, INTERFERON_MIN,
        INTERFERON_DECAY_PER_TURN]

/-- Witness for the amended C2 at a concrete extinct state. -/
theorem c2_amended_witness :
    c2State.entities = [] ∧
    ((process_turn c2Cfg (fun _ => 0) 0 c2State).state.entities = [] ∧
     (process_turn c2Cfg (fun _ => 0) 0 c2State).state.turn_count
       = c2State.turn_count + 1 ∧
     (process_turn c2Cfg (fun _ => 0) 0 c2State).state.interferon_level
       = max 0 (c2State.interferon_level - 1) ∧
     (process_turn c2Cfg (fun _ => 0) 0 c2State).changes = []) :=
  ⟨rfl, c2_amended_extinct_tick c2Cfg (fun _ => 0) 0 c2State rfl⟩

end ViralSim

namespace ViralSim

theorem pass1_fold_length (effects : List Effect) :
    ∀ acc : List Rule,
      (effects.foldl (fun a e => addEffectRules e a) acc).length =
        acc.length + (effects.filter (fun ef =>
          match ef with
          | Effect.add_transition _ => true
          | _ => false)).length := by
  induction effects with
  | nil => intro acc; simp
  | cons e rest ih =>
    intro acc
    rw [List.foldl_cons, ih]
    cases e <;> (simp [addEffectRules]; try omega)

theorem pass1Rules_length_aux (genes : List Gene) :
    ∀ acc : List Rule,
      (genes.foldl (fun a gn => pass1Gene gn a) acc).length =
        acc.length + addEffectCount genes := by
  induction genes with
  | nil => intro acc; simp [addEffectCount]
  | cons gene rest ih =>
    intro acc
    rw [List.foldl_cons, ih]
    show (pass1Gene gene acc).length + _ = _
    rw [pass1Gene, pass1_fold_length]
    simp [addEffectCount]
    omega

theorem modifyFirst_length (n : String) (m : Modification) :
    ∀ rs : List Rule, (modifyFirst n m rs).length = rs.length := by
  intro rs
  induction rs with
  | nil => rfl
  | cons r rest ih => by_cases h : r.name = n <;> simp [modifyFirst, h, ih]

theorem pass2_fold_length (effects : List Effect) :
    ∀ acc : List Rule,
      (effects.foldl (fun a e => modifyEffectStep e a) acc).length = acc.length := by
  induction effects with
  | nil => intro acc; rfl
  | cons e rest ih =>
    intro acc
    rw [List.foldl_cons, ih]
    cases e <;> simp [modifyEffectStep, modifyFirst_length]

theorem pass2Rules_length (genes : List Gene) :
    ∀ rs : List Rule, (pass2Rules genes rs).length = rs.length := by
  induction genes with
  | nil => intro rs; rfl
  | cons gene rest ih =>
    intro rs
    rw [pass2Rules, List.foldl_cons]
    show (pass2Rules rest (pass2Gene gene rs)).length = _
    rw [ih, pass2Gene, pass2_fold_length]

/-- C3 (amended): compilation performs no validation and never fails:
`get_virus_capabilities` always returns a blueprint that retains one
transition rule per `add_transition` effect, including rules with zero
inputs, probabilities outside `[0,1]`, negative counts, or an unknown
`rule_type`. Such rules are inert or partially inert at simulation time
instead: a rule with zero inputs can never fire (its `max_applications`
fallback is 0), and a rule with an unknown `rule_type` draws no trials and
applies zero times. -/
theorem c3_amended_no_validation (db : Option (String → Option ℚ))
    (starter : String) (c : ℤ) (genes : List Gene) :
    ((get_virus_capabilities db starter c genes).transition_rules.length
        = addEffectCount genes) ∧
    (∀ (r : Rule) (g : ℕ → ℚ) (st : Dict) (s : ℕ), r.inputs = [] →
        apply_rule_to_state g r st s = ([], s)) ∧
    (∀ (r : Rule) (g : ℕ → ℚ) (st : Dict) (s : ℕ),
        r.rule_type ≠ "per_entity" → r.rule_type ≠ "per_pair" →
        apply_rule_to_state g r st s = ([], s)) := by
  refine ⟨?_, ?_, ?_⟩
  · show (pass2Rules genes (pass1Rules genes)).length = _
    rw [pass2Rules_length, pass1Rules, pass1Rules_length_aux]
    simp
  · intro r g st s hr
    have hm : get_max_applications_from_state r st = 0 := by
      unfold get_max_applications_from_state
      rw [hr]
      rfl
    unfold apply_rule_to_state
    rw [hm]
    simp
  · intro r g st s h1 h2
    unfold apply_rule_to_state ruleTrialResult
    by_cases hm : get_max_applications_from_state r st = 0
    · simp [hm]
    · simp [hm, h1, h2]

/-- C3 (counterexample to the claim as stated): a gene contributing a rule
that violates all four conditions at once — zero inputs, probability 7,
output count −3, rule_type `banana` — compiles without any error into a
blueprint containing exactly that rule, instead of failing the compilation
call. -/
theorem c3_counterexample :
    (get_virus_capabilities none "A" 10
      [⟨"gb", [Effect.add_transition ⟨"bad", "banana", [], [⟨"Z", -3⟩], 7, none⟩]⟩]
      ).transition_rules
      = [⟨"bad", "banana", [], [⟨"Z", -3⟩], 7, none⟩] := by
  rfl

/-- Witness for the amended C3 at a concrete invalid gene selection. -/
theorem c3_witness :
    ((get_virus_capabilities none "A" 10
      [⟨"gb", [Effect.add_transition ⟨"bad", "banana", [], [⟨"Z", -3⟩], 7, none⟩]⟩]
      ).transition_rules.length
      = addEffectCount
          [⟨"gb", [Effect.add_transition ⟨"bad", "banana", [], [⟨"Z", -3⟩], 7, none⟩]⟩]) ∧
    apply_rule_to_state (fun _ => 0) ⟨"bad", "banana", [], [⟨"Z", -3⟩], 7, none⟩
      [("A", 10)] 5 = ([], 5) :=
  ⟨(c3_amended_no_validation none "A" 10
      [⟨"gb", [Effect.add_transition ⟨"bad", "banana", [], [⟨"Z", -3⟩], 7, none⟩]⟩]).1,
   (c3_amended_no_validation none "A" 10 []).2.1
      ⟨"bad", "banana", [], [⟨"Z", -3⟩], 7, none⟩ (fun _ => 0) [("A", 10)] 5 rfl⟩

/-- C6: a `ModifyTransition` fragment modifies its target rule even when the
gene adding that rule appears later in the selection list than the modifying
gene: compiling `[modifier gene, adder gene]` yields exactly the added rule
with the modification applied. -/
theorem c6_modify_before_add_applies (db : Option (String → Option ℚ))
    (starter : String) (c : ℤ) (r : Rule) (n : String) (m : Modification)
    (gmName gaName : String) (h : r.name = n) :
    (get_virus_capabilities db starter c
      [⟨gmName, [Effect.modify_transition n m]⟩,
       ⟨gaName, [Effect.add_transition r]⟩]).transition_rules
      = [applyModification m (ingestRule r)] := by
  have hn : (ingestRule r).name = n := by simp [ingestRule, h]
  simp [get_virus_capabilities, pass1Rules, pass1Gene, addEffectRules,
        pass2Rules, pass2Gene, modifyEffectStep, modifyFirst, hn]

/-- Witness for C6 at a concrete rule and modifier. -/
theorem c6_witness :
    (⟨"t", "per_entity", [⟨"A", 1, true⟩], [⟨"B", 1⟩], 1/2, none⟩ : Rule).name = "t" ∧
    (get_virus_capabilities none "S" 10
      [⟨"gm", [Effect.modify_transition "t" ⟨some 2, none⟩]⟩,
       ⟨"ga", [Effect.add_transition
          ⟨"t", "per_entity", [⟨"A", 1, true⟩], [⟨"B", 1⟩], 1/2, none⟩]⟩]).transition_rules
      = [applyModification ⟨some 2, none⟩
          (ingestRule ⟨"t", "per_entity", [⟨"A", 1, true⟩], [⟨"B", 1⟩], 1/2, none⟩)] :=
  ⟨rfl, c6_modify_before_add_applies none "S" 10 _ "t" ⟨some 2, none⟩ "gm" "ga" rfl⟩

end ViralSim

namespace ViralSim

theorem applyModification_prob_le (m : Modification) (r : Rule)
    (h : r.probability ≤ 1) : (applyModification m r).probability ≤ 1 := by
  obtain ⟨pm, im⟩ := m
  unfold applyModification
  cases pm <;> cases im <;> simp only []
  · exact h
  · split_ifs <;> simp [h]
  · exact min_le_left _ _
  · split_ifs <;> simp [min_le_left]

theorem modifyFirst_prob_le (n : String) (m : Modification) :
    ∀ rs : List Rule, (∀ x ∈ rs, x.probability ≤ 1) →
      ∀ x ∈ modifyFirst n m rs, x.probability ≤ 1 := by
  intro rs
  induction rs with
  | nil => intro _ x hx; simp [modifyFirst] at hx
  | cons r rest ih =>
    intro h x hx
    by_cases hr : r.name = n
    · rw [modifyFirst, if_pos hr] at hx
      rcases List.mem_cons.mp hx with rfl | hx2
      · exact applyModification_prob_le m r (h r (List.mem_cons_self r rest))
      · exact h x (List.mem_cons_of_mem r hx2)
    · rw [modifyFirst, if_neg hr] at hx
      rcases List.mem_cons.mp hx with rfl | hx2
      · exact h x (List.mem_cons_self x rest)
      · exact ih (fun y hy => h y (List.mem_cons_of_mem r hy)) x hx2

theorem pass2_fold_prob_le (effects : List Effect) :
    ∀ acc : List Rule, (∀ x ∈ acc, x.probability ≤ 1) →
      ∀ x ∈ effects.foldl (fun a e => modifyEffectStep e a) acc,
        x.probability ≤ 1 := by
  induction effects with
  | nil => intro acc h; simpa using h
  | cons e rest ih =>
    intro acc h
    rw [List.foldl_cons]
    apply ih
    cases e with
    | modify_transition n m => exact modifyFirst_prob_le n m acc h
    | add_transition r => exact h
    | other_effect => exact h

theorem pass2Rules_prob_le (genes : List Gene) :
    ∀ rs : List Rule, (∀ x ∈ rs, x.probability ≤ 1) →
      ∀ x ∈ pass2Rules genes rs, x.probability ≤ 1 := by
  induction genes with
  | nil => intro rs h; simpa [pass2Rules] using h
  | cons gene rest ih =>
    intro rs h
    rw [pass2Rules, List.foldl_cons]
    show ∀ x ∈ pass2Rules rest (pass2Gene gene rs), x.probability ≤ 1
    exact ih _ (pass2_fold_prob_le gene.effects rs h)

theorem pass1_fold_prob_le (effects : List Effect)
    (hef : ∀ ef ∈ effects, effectAddProb ef ≤ 1) :
    ∀ acc : List Rule, (∀ x ∈ acc, x.probability ≤ 1) →
      ∀ x ∈ effects.foldl (fun a e => addEffectRules e a) acc,
        x.probability ≤ 1 := by
  induction effects with
  | nil => intro acc h; simpa using h
  | cons e rest ih =>
    intro acc h
    rw [List.foldl_cons]
    apply ih (fun ef hf => hef ef (List.mem_cons_of_mem e hf))
    cases e with
    | add_transition r =>
      intro x hx
      rcases List.mem_append.mp hx with hx1 | hx2
      · exact h x hx1
      · have hx3 : x = ingestRule r := by simpa using hx2
        subst hx3
        have := hef (Effect.add_transition r) (List.mem_cons_self _ rest)
        simpa [ingestRule, effectAddProb] using this
    | modify_transition n m => exact h
    | other_effect => exact h

theorem pass1Rules_prob_le (genes : List Gene)
    (H : ∀ gene ∈ genes, ∀ ef ∈ gene.effects, effectAddProb ef ≤ 1) :
    ∀ x ∈ pass1Rules genes, x.probability ≤ 1 := by
  suffices haux : ∀ gs : List Gene,
      (∀ gene ∈ gs, ∀ ef ∈ gene.effects, effectAddProb ef ≤ 1) →
      ∀ acc : List Rule, (∀ x ∈ acc, x.probability ≤ 1) →
      ∀ x ∈ gs.foldl (fun a gn => pass1Gene gn a) acc, x.probability ≤ 1 by
    exact haux genes H [] (by simp)
  intro gs
  induction gs with
  | nil => intro _ acc h; simpa using h
  | cons gene rest ih =>
    intro hg acc h
    rw [List.foldl_cons]
    apply ih (fun gn hgn ef hef => hg gn (List.mem_cons_of_mem gene hgn) ef hef)
    exact pass1_fold_prob_le gene.effects
      (fun ef hef => hg gene (List.mem_cons_self gene rest) ef hef) acc h

/-- C9: for every gene selection whose added rules all start with
probability at most 1, every rule of the compiled blueprint has probability
at most 1 — each `modify_transition` application sets
`probability = min(1.0, probability * multiplier)`, so repeated multiplier
modifications never push a rule's probability above 1.0. -/
theorem c9_probability_never_exceeds_one (db : Option (String → Option ℚ))
    (starter : String) (c : ℤ) (genes : List Gene)
    (H : ∀ gene ∈ genes, ∀ ef ∈ gene.effects, effectAddProb ef ≤ 1) :
    ∀ r ∈ (get_virus_capabilities db starter c genes).transition_rules,
      r.probability ≤ 1 := by
  intro r hr
  have hmem : r ∈ pass2Rules genes (pass1Rules genes) := hr
  exact pass2Rules_prob_le genes (pass1Rules genes)
    (pass1Rules_prob_le genes H) r hmem

/-- Witness for C9: a rule added with probability 1/2 and then multiplied by
3 twice still compiles to probability at most 1. -/
theorem c9_witness :
    (∀ gene ∈ [(⟨"ga", [Effect.add_transition
          ⟨"t", "per_entity", [⟨"A", 1, true⟩], [], 1/2, none⟩]⟩ : Gene),
        ⟨"gm", [Effect.modify_transition "t" ⟨some 3, none⟩,
                Effect.modify_transition "t" ⟨some 3, none⟩]⟩],
      ∀ ef ∈ gene.effects, effectAddProb ef ≤ 1) ∧
    ∀ r ∈ (get_virus_capabilities none "S" 10
        [⟨"ga", [Effect.add_transition
            ⟨"t", "per_entity", [⟨"A", 1, true⟩], [], 1/2, none⟩]⟩,
         ⟨"gm", [Effect.modify_transition "t" ⟨some 3, none⟩,
                 Effect.modify_transition "t" ⟨some 3, none⟩]⟩]).transition_rules,
      r.probability ≤ 1 :=
  ⟨by
    intro gene hg ef hef
    fin_cases hg <;> fin_cases hef <;> norm_num [effectAddProb],
   c9_probability_never_exceeds_one none "S" 10 _
    (by
      intro gene hg ef hef
      fin_cases hg <;> fin_cases hef <;> norm_num [effectAddProb])⟩

end ViralSim

namespace ViralSim

theorem alookup_mem {α : Type} (k : String) (l : List (String × α)) (v : α)
    (h : alookup k l = some v) : (k, v) ∈ l := by
  induction l with
  | nil => simp [alookup] at h
  | cons p rest ih =>
    obtain ⟨k', v'⟩ := p
    rw [alookup] at h
    by_cases hk : k' = k
    · rw [if_pos hk] at h
      obtain rfl := Option.some_inj.mp h
      subst hk
      exact List.mem_cons_self _ _
    · rw [if_neg hk] at h
      exact List.mem_cons_of_mem _ (ih h)

theorem dget_nonneg (st : Dict) (h : ∀ p ∈ st, 0 ≤ p.2) (e : String) :
    0 ≤ dget st e := by
  unfold dget
  cases hl : alookup e st with
  | none => simp
  | some v => simpa using h (e, v) (alookup_mem e st v hl)

theorem foldl_min_le_init (a : ℤ) (l : List ℤ) : l.foldl min a ≤ a := by
  induction l generalizing a with
  | nil => simp
  | cons x xs ih => exact le_trans (ih (min a x)) (min_le_left a x)

theorem le_foldl_min (c a : ℤ) (l : List ℤ) (ha : c ≤ a)
    (hl : ∀ x ∈ l, c ≤ x) : c ≤ l.foldl min a := by
  induction l generalizing a with
  | nil => simpa using ha
  | cons x xs ih =>
    rw [List.foldl_cons]
    exact ih (min a x) (le_min ha (hl x (List.mem_cons_self x xs)))
      (fun y hy => hl y (List.mem_cons_of_mem x hy))

theorem foldl_min_le_mem (a : ℤ) (l : List ℤ) (x : ℤ) (hx : x ∈ l) :
    l.foldl min a ≤ x := by
  induction l generalizing a with
  | nil => cases hx
  | cons y ys ih =>
    rw [List.foldl_cons]
    rcases List.mem_cons.mp hx with rfl | h2
    · exact le_trans (foldl_min_le_init _ _) (min_le_right a x)
    · exact ih _ h2

theorem minList_le_of_mem (l : List ℤ) (x : ℤ) (hx : x ∈ l) : minList l ≤ x := by
  cases l with
  | nil => cases hx
  | cons y ys =>
    rcases List.mem_cons.mp hx with rfl | h
    · exact foldl_min_le_init x ys
    · exact foldl_min_le_mem y ys x h

theorem le_minList (c : ℤ) (l : List ℤ) (hne : l ≠ [])
    (h : ∀ x ∈ l, c ≤ x) : c ≤ minList l := by
  cases l with
  | nil => exact absurd rfl hne
  | cons y ys =>
    exact le_foldl_min c y ys (h y (List.mem_cons_self y ys))
      (fun x hx => h x (List.mem_cons_of_mem y hx))

theorem maxAppsAux_some (st : Dict) (hst : ∀ p ∈ st, 0 ≤ p.2) :
    ∀ (inputs : List InputSpec) (a : ℤ), 0 ≤ a →
      (∀ i ∈ inputs, 1 ≤ i.count) →
      maxAppsAux st inputs (some a) =
        (inputs.map (fun i => Int.fdiv (dget st i.entity) i.count)).foldl min a := by
  intro inputs
  induction inputs with
  | nil => intro a _ _; rfl
  | cons i rest ih =>
    intro a ha hcnt
    have hc : (1 : ℤ) ≤ i.count := hcnt i (List.mem_cons_self _ _)
    have hav : 0 ≤ dget st i.entity := dget_nonneg st hst i.entity
    have hq : 0 ≤ Int.fdiv (dget st i.entity) i.count :=
      Int.fdiv_nonneg hav (le_trans zero_le_one hc)
    by_cases hlt : dget st i.entity < i.count
    · have hq0 : Int.fdiv (dget st i.entity) i.count = 0 := by
        rw [Int.fdiv_eq_ediv _ (le_trans zero_le_one hc)]
        exact Int.ediv_eq_zero_of_lt hav hlt
      simp only [maxAppsAux, if_pos hlt, List.map_cons, List.foldl_cons, hq0]
      rw [min_eq_right ha]
      refine (le_antisymm (foldl_min_le_init _ _) (le_foldl_min _ _ _ le_rfl ?_)).symm
      intro x hx
      rcases List.mem_map.mp hx with ⟨j, hj, rfl⟩
      exact Int.fdiv_nonneg (dget_nonneg st hst j.entity)
        (le_trans zero_le_one (hcnt j (List.mem_cons_of_mem i hj)))
    · simp only [maxAppsAux, if_neg hlt, ite_self, List.map_cons, List.foldl_cons]
      exact ih (min a (Int.fdiv (dget st i.entity) i.count))
        (le_min ha hq) (fun j hj => hcnt j (List.mem_cons_of_mem i hj))

theorem get_max_applications_formula (r : Rule) (st : Dict)
    (h1 : r.inputs ≠ []) (h2 : ∀ i ∈ r.inputs, 1 ≤ i.count)
    (h3 : ∀ p ∈ st, 0 ≤ p.2) :
    get_max_applications_from_state r st =
      minList (r.inputs.map (fun i => Int.fdiv (dget st i.entity) i.count)) := by
  unfold get_max_applications_from_state
  rcases hr : r.inputs with _ | ⟨i, rest⟩
  · exact absurd hr h1
  · rw [hr] at h2
    have hc : (1 : ℤ) ≤ i.count := h2 i (List.mem_cons_self _ _)
    have hav : 0 ≤ dget st i.entity := dget_nonneg st h3 i.entity
    by_cases hlt : dget st i.entity < i.count
    · have hq0 : Int.fdiv (dget st i.entity) i.count = 0 := by
        rw [Int.fdiv_eq_ediv _ (le_trans zero_le_one hc)]
        exact Int.ediv_eq_zero_of_lt hav hlt
      simp only [maxAppsAux, if_pos hlt, List.map_cons, minList, hq0]
      refine (le_antisymm (foldl_min_le_init _ _) (le_foldl_min _ _ _ le_rfl ?_)).symm
      intro x hx
      rcases List.mem_map.mp hx with ⟨j, hj, rfl⟩
      exact Int.fdiv_nonneg (dget_nonneg st h3 j.entity)
        (le_trans zero_le_one (h2 j (List.mem_cons_of_mem i hj)))
    · simp only [maxAppsAux, if_neg hlt, ite_self, List.map_cons, minList]
      exact maxAppsAux_some st h3 rest _
        (Int.fdiv_nonneg hav (le_trans zero_le_one hc))
        (fun j hj => h2 j (List.mem_cons_of_mem i hj))

theorem maxAppsAux_consumed_irrelevant (st : Dict) (f : InputSpec → Bool) :
    ∀ (inputs : List InputSpec) (acc : Option ℤ),
      maxAppsAux st (inputs.map (fun i => { i with consumed := f i })) acc =
        maxAppsAux st inputs acc := by
  intro inputs
  induction inputs with
  | nil => intro acc; rfl
  | cons i rest ih =>
    intro acc
    simp only [List.map_cons, maxAppsAux, ite_self]
    by_cases hlt : dget st i.entity < i.count
    · simp [hlt]
    · simp [hlt, ih]

/-- C7: for every rule with at least one input, input counts ≥ 1 (the data
model invariant; a zero count would raise `ZeroDivisionError` in the source)
and every non-negative population state, `get_max_applications_from_state`
equals the minimum over the inputs of `available // required`; it is 0
whenever some input's availability is below its required count; and it is
computed identically whether or not each input is marked consumed. -/
theorem c7_max_applications_cap (r : Rule) (st : Dict)
    (h1 : r.inputs ≠ []) (h2 : ∀ i ∈ r.inputs, 1 ≤ i.count)
    (h3 : ∀ p ∈ st, 0 ≤ p.2) :
    (get_max_applications_from_state r st
        = minList (r.inputs.map (fun i => Int.fdiv (dget st i.entity) i.count))) ∧
    ((∃ i ∈ r.inputs, dget st i.entity < i.count) →
        get_max_applications_from_state r st = 0) ∧
    (∀ f : InputSpec → Bool,
        get_max_applications_from_state
          { r with inputs := r.inputs.map (fun i => { i with consumed := f i }) } st
          = get_max_applications_from_state r st) := by
  refine ⟨get_max_applications_formula r st h1 h2 h3, ?_, ?_⟩
  · rintro ⟨i, hi, hlt⟩
    rw [get_max_applications_formula r st h1 h2 h3]
    have hq : Int.fdiv (dget st i.entity) i.count = 0 := by
      rw [Int.fdiv_eq_ediv _ (le_trans zero_le_one (h2 i hi))]
      exact Int.ediv_eq_zero_of_lt (dget_nonneg st h3 i.entity) hlt
    refine le_antisymm ?_ ?_
    · rw [← hq]
      exact minList_le_of_mem _ _ (List.mem_map_of_mem _ hi)
    · refine le_minList 0 _ (by simpa using h1) ?_
      intro x hx
      rcases List.mem_map.mp hx with ⟨j, hj, rfl⟩
      exact Int.fdiv_nonneg (dget_nonneg st h3 j.entity)
        (le_trans zero_le_one (h2 j hj))
  · intro f
    unfold get_max_applications_from_state
    exact maxAppsAux_consumed_irrelevant st f r.inputs none

/-- Witness for C7: the spec's own example — a rule requiring 3 units of `X`
with 7 available caps at 2 applications. -/
theorem c7_witness :
    ((get_max_applications_from_state
        ⟨"w", "per_entity", [⟨"X", 3, true⟩], [], 1, none⟩ [("X", 7)]
        = minList (([⟨"X", 3, true⟩] : List InputSpec).map
            (fun i => Int.fdiv (dget [("X", 7)] i.entity) i.count))) ∧
     ((∃ i ∈ ([⟨"X", 3, true⟩] : List InputSpec), dget [("X", 7)] i.entity < i.count) →
        get_max_applications_from_state
          ⟨"w", "per_entity", [⟨"X", 3, true⟩], [], 1, none⟩ [("X", 7)] = 0) ∧
     (∀ f : InputSpec → Bool,
        get_max_applications_from_state
          ⟨"w", "per_entity", ([⟨"X", 3, true⟩] : List InputSpec).map
              (fun i => { i with consumed := f i }), [], 1, none⟩ [("X", 7)]
          = get_max_applications_from_state
              ⟨"w", "per_entity", [⟨"X", 3, true⟩], [], 1, none⟩ [("X", 7)])) ∧
    get_max_applications_from_state
      ⟨"w", "per_entity", [⟨"X", 3, true⟩], [], 1, none⟩ [("X", 7)] = 2 :=
  ⟨c7_max_applications_cap ⟨"w", "per_entity", [⟨"X", 3, true⟩], [], 1, none⟩
      [("X", 7)] (by decide) (by decide) (by decide), by decide⟩

end ViralSim

namespace ViralSim

theorem ruleStep_accrued_nonneg (g : ℕ → ℚ) (ls : LoopState) (r : Rule)
    (h : 0 ≤ ls.accrued) : 0 ≤ (ruleStep g ls r).accrued := by
  unfold ruleStep
  simp only
  split_ifs with h2
  · exact add_nonneg h (le_of_lt h2)
  · exact h

theorem ruleLoop_accrued_nonneg (g : ℕ → ℚ) :
    ∀ (rules : List Rule) (ls : LoopState), 0 ≤ ls.accrued →
      0 ≤ (ruleLoop g rules ls).accrued := by
  intro rules
  induction rules with
  | nil => intro ls h; exact h
  | cons r rest ih =>
    intro ls h
    rw [ruleLoop, List.foldl_cons]
    exact ih (ruleStep g ls r) (ruleStep_accrued_nonneg g ls r h)

theorem interferon_clamp_bound (f acc : ℚ) (hf1 : f ≤ 100) (hacc : 0 ≤ acc) :
    (0 ≤ (if 0 < acc then
            min INTERFERON_MAX
              (max INTERFERON_MIN (f - INTERFERON_DECAY_PER_TURN) + acc)
          else max INTERFERON_MIN (f - INTERFERON_DECAY_PER_TURN))) ∧
    ((if 0 < acc then
        min INTERFERON_MAX
          (max INTERFERON_MIN (f - INTERFERON_DECAY_PER_TURN) + acc)
      else max INTERFERON_MIN (f - INTERFERON_DECAY_PER_TURN)) ≤ 100) ∧
    ((if 0 < acc then
        min INTERFERON_MAX
          (max INTERFERON_MIN (f - INTERFERON_DECAY_PER_TURN) + acc)
      else max INTERFERON_MIN (f - INTERFERON_DECAY_PER_TURN))
      = min INTERFERON_MAX
          (max INTERFERON_MIN (f - INTERFERON_DECAY_PER_TURN) + acc)) := by
  have hl1a : (0 : ℚ) ≤ max INTERFERON_MIN (f - INTERFERON_DECAY_PER_TURN) :=
    le_max_left INTERFERON_MIN _
  have hl1b : max INTERFERON_MIN (f - INTERFERON_DECAY_PER_TURN) ≤ 100 := by
    apply max_le
    · norm_num [INTERFERON_MIN]
    · have : f - INTERFERON_DECAY_PER_TURN ≤ 99 := by
        simp only [INTERFERON_DECAY_PER_TURN]
        linarith
      linarith
  split_ifs with h
  · refine ⟨le_min (by norm_num [INTERFERON_MAX]) (add_nonneg hl1a hacc), ?_, rfl⟩
    calc min INTERFERON_MAX
          (max INTERFERON_MIN (f - INTERFERON_DECAY_PER_TURN) + acc)
        ≤ INTERFERON_MAX := min_le_left _ _
      _ ≤ 100 := by norm_num [INTERFERON_MAX]
  · have hacc0 : acc = 0 := le_antisymm (not_lt.mp h) hacc
    subst hacc0
    refine ⟨hl1a, hl1b, ?_⟩
    rw [add_zero]
    exact (min_eq_right (by simpa [INTERFERON_MAX] using hl1b)).symm

/-- C8: given a pre-turn feedback level in `[0, 100]`, after any
`process_turn` call the feedback (interferon) level lies in `[0, 100]`
regardless of the turn's accrual: the level is updated by first subtracting
the fixed per-turn decay 1.0 floored at 0, then adding the turn's accrual
(which is always ≥ 0) capped at 100. -/
theorem c8_feedback_bounds (cfg : SimConfig) (g : ℕ → ℚ) (s0 : ℕ)
    (st : SimState) (_h0 : 0 ≤ st.interferon_level)
    (h1 : st.interferon_level ≤ 100) :
    0 ≤ (process_turn cfg g s0 st).state.interferon_level ∧
    (process_turn cfg g s0 st).state.interferon_level ≤ 100 ∧
    0 ≤ (process_turn cfg g s0 st).interferon_accrued ∧
    (process_turn cfg g s0 st).state.interferon_level
      = min INTERFERON_MAX
          (max INTERFERON_MIN (st.interferon_level - INTERFERON_DECAY_PER_TURN)
            + (process_turn cfg g s0 st).interferon_accrued) := by
  have hacc : 0 ≤ (process_turn cfg g s0 st).interferon_accrued := by
    show 0 ≤ (ruleLoop g cfg.transition_rules _).accrued
    exact ruleLoop_accrued_nonneg g _ _ le_rfl
  obtain ⟨hb0, hb1, heq⟩ :=
    interferon_clamp_bound st.interferon_level
      ((process_turn cfg g s0 st).interferon_accrued) h1 hacc
  exact ⟨hb0, hb1, hacc, heq⟩

/-- Witness for C8 at feedback level 50 with no rules. -/
theorem c8_witness :
    0 ≤ (process_turn ⟨[], [], none⟩ (fun _ => 0) 0
          ⟨[("A", 3)], 50, 0⟩).state.interferon_level ∧
    (process_turn ⟨[], [], none⟩ (fun _ => 0) 0
          ⟨[("A", 3)], 50, 0⟩).state.interferon_level ≤ 100 ∧
    0 ≤ (process_turn ⟨[], [], none⟩ (fun _ => 0) 0
          ⟨[("A", 3)], 50, 0⟩).interferon_accrued ∧
    (process_turn ⟨[], [], none⟩ (fun _ => 0) 0
          ⟨[("A", 3)], 50, 0⟩).state.interferon_level
      = min INTERFERON_MAX
          (max INTERFERON_MIN
              ((⟨[("A", 3)], 50, 0⟩ : SimState).interferon_level
                - INTERFERON_DECAY_PER_TURN)
            + (process_turn ⟨[], [], none⟩ (fun _ => 0) 0
                ⟨[("A", 3)], 50, 0⟩).interferon_accrued) :=
  c8_feedback_bounds ⟨[], [], none⟩ (fun _ => 0) 0 ⟨[("A", 3)], 50, 0⟩
    (by norm_num) (by norm_num)

end ViralSim

namespace ViralSim

theorem alookup_append {α : Type} (k : String) (xs ys : List (String × α)) :
    alookup k (xs ++ ys) =
      match alookup k xs with
      | some v => some v
      | none => alookup k ys := by
  induction xs with
  | nil => rfl
  | cons p rest ih =>
    obtain ⟨k', v'⟩ := p
    by_cases hk : k' = k <;> simp [alookup, hk, ih]

theorem foldl_aggStep_skip (t : ChangeType) :
    ∀ (cs : List Change) (acc : List (String × ℤ)),
      (∀ ch ∈ cs, ch.ctype ≠ t) → cs.foldl (aggStep t) acc = acc := by
  intro cs
  induction cs with
  | nil => intro acc _; rfl
  | cons ch rest ih =>
    intro acc h
    rw [List.foldl_cons]
    have hch : aggStep t acc ch = acc := by
      unfold aggStep
      rw [if_neg (h ch (List.mem_cons_self ch rest))]
    rw [hch]
    exact ih acc (fun c hc => h c (List.mem_cons_of_mem ch hc))

theorem foldl_aggStep_all_fresh (t : ChangeType) :
    ∀ (cs : List Change) (acc : List (String × ℤ)),
      (∀ ch ∈ cs, ch.ctype = t) →
      (cs.map (fun ch => ch.entity)).Nodup →
      (∀ ch ∈ cs, alookup ch.entity acc = none) →
      cs.foldl (aggStep t) acc = acc ++ cs.map (fun ch => (ch.entity, ch.count)) := by
  intro cs
  induction cs with
  | nil => intro acc _ _ _; simp
  | cons ch rest ih =>
    intro acc ht hnd hfresh
    rw [List.foldl_cons]
    have hstep : aggStep t acc ch = acc ++ [(ch.entity, ch.count)] := by
      unfold aggStep alAdd
      rw [if_pos (ht ch (List.mem_cons_self ch rest)),
          hfresh ch (List.mem_cons_self ch rest)]
      rfl
    rw [List.map_cons, List.nodup_cons] at hnd
    rw [hstep, ih (acc ++ [(ch.entity, ch.count)])
      (fun c hc => ht c (List.mem_cons_of_mem ch hc))
      hnd.2
      ?_]
    · simp
    · intro c hc
      rw [alookup_append]
      rw [hfresh c (List.mem_cons_of_mem ch hc)]
      have hne : ch.entity ≠ c.entity := by
        intro he
        have hcm : c.entity ∈ rest.map (fun x => x.entity) :=
          List.mem_map_of_mem _ hc
        rw [← he] at hcm
        exact hnd.1 hcm
      simp [alookup, hne]

theorem aggregate_ruleChanges_consumed (r : Rule) (k : ℤ)
    (hnd : ((r.inputs.filter (fun i => i.consumed)).map
        (fun i => i.entity)).Nodup) :
    aggregateType (ruleChanges r k) ChangeType.consumed
      = (r.inputs.filter (fun i => i.consumed)).map
          (fun i => (i.entity, k * i.count)) := by
  unfold aggregateType ruleChanges
  rw [List.foldl_append]
  rw [foldl_aggStep_all_fresh ChangeType.consumed _ []
      (by intro ch hc; rcases List.mem_map.mp hc with ⟨i, _, rfl⟩; rfl)
      (by simpa [List.map_map, Function.comp] using hnd)
      (by intro ch _; rfl)]
  rw [foldl_aggStep_skip ChangeType.consumed _ _
      (by intro ch hc; rcases List.mem_map.mp hc with ⟨o, _, rfl⟩; simp)]
  simp [List.map_map, Function.comp]

theorem alookup_map_pair (l : List InputSpec) (k : ℤ) (i : InputSpec)
    (hi : i ∈ l) (hnd : (l.map (fun j => j.entity)).Nodup) :
    alookup i.entity (l.map (fun j => (j.entity, k * j.count)))
      = some (k * i.count) := by
  induction l with
  | nil => cases hi
  | cons j rest ih =>
    rw [List.map_cons, List.nodup_cons] at hnd
    simp only [List.map_cons, alookup]
    by_cases hj : j.entity = i.entity
    · rw [if_pos hj]
      rcases List.mem_cons.mp hi with rfl | hrest
      · rfl
      · exfalso
        apply hnd.1
        rw [hj]
        exact List.mem_map_of_mem _ hrest
    · rw [if_neg hj]
      rcases List.mem_cons.mp hi with rfl | hrest
      · exact absurd rfl hj
      · exact ih hrest hnd.2

theorem foldl_min_const (k : ℤ) :
    ∀ l : List ℤ, (∀ x ∈ l, x = k) → l.foldl min k = k := by
  intro l
  induction l with
  | nil => intro _; rfl
  | cons x xs ih =>
    intro h
    rw [List.foldl_cons, h x (List.mem_cons_self x xs), min_self]
    exact ih (fun y hy => h y (List.mem_cons_of_mem x hy))

theorem minList_const (l : List ℤ) (k : ℤ) (hne : l ≠ [])
    (h : ∀ x ∈ l, x = k) : minList l = k := by
  cases l with
  | nil => exact absurd rfl hne
  | cons x xs =>
    have hx : x = k := h x (List.mem_cons_self x xs)
    subst hx
    exact foldl_min_const x xs (fun y hy => h y (List.mem_cons_of_mem x hy))

theorem estimate_of_ruleChanges (r : Rule) (k : ℕ) (hk : 1 ≤ k)
    (hcons : r.inputs.filter (fun i => i.consumed) ≠ [])
    (hcnt : ∀ i ∈ r.inputs.filter (fun i => i.consumed), 1 ≤ i.count)
    (hnd : ((r.inputs.filter (fun i => i.consumed)).map
        (fun i => i.entity)).Nodup) :
    estimate_applications_from_changes r (ruleChanges r (k : ℤ)) = (k : ℤ) := by
  have hin : r.inputs ≠ [] := by
    intro h
    apply hcons
    rw [h]
    rfl
  have hvals : (r.inputs.filter (fun i => i.consumed)).map
      (fun i => Int.fdiv ((alookup i.entity
          (aggregateType (ruleChanges r (k : ℤ)) ChangeType.consumed)).getD 0)
        (max 1 i.count))
      = (r.inputs.filter (fun i => i.consumed)).map (fun _ => (k : ℤ)) := by
    apply List.map_congr_left
    intro i hi
    rw [aggregate_ruleChanges_consumed r (k : ℤ) hnd,
        alookup_map_pair _ (k : ℤ) i hi hnd]
    have hc : (1 : ℤ) ≤ i.count := hcnt i hi
    rw [Option.getD_some, max_eq_right hc]
    exact Int.mul_fdiv_cancel (k : ℤ) (by omega)
  have hk0 : (k : ℤ) ≠ 0 := by
    simp only [ne_eq, Int.natCast_eq_zero]
    omega
  have hcc : aggregateType (ruleChanges r (k : ℤ)) ChangeType.consumed ≠ [] := by
    rw [aggregate_ruleChanges_consumed r (k : ℤ) hnd]
    simpa using hcons
  have happ : appsFromConsumed r (ruleChanges r (k : ℤ)) = some (k : ℤ) := by
    unfold appsFromConsumed
    rw [if_neg hin, if_pos ⟨hcons, hcc⟩, hvals,
        minList_const _ (k : ℤ) (by simpa using hcons) (by simp)]
  unfold estimate_applications_from_changes
  rw [happ]
  simp [hk0]

/-- C4: for every compiled rule with a positive interferon amount, when the
rule successfully applies `k ≥ 1` times in a turn (emitting the change
records `ruleChanges r k`), the amount this rule adds to the turn's feedback
accrual equals `round(k * feedback_amount, 2)`, where `k` is re-derived from
the emitted Consumed records by the same floor-division arithmetic as the
max-applications cap (re-derivation recovers exactly `k` when the consumed
inputs name pairwise distinct entities and have counts ≥ 1). -/
theorem c4_interferon_accrual_formula (r : Rule) (k : ℕ) (hk : 1 ≤ k)
    (hamt : 0 < r.interferon_amount.getD 0)
    (hcons : r.inputs.filter (fun i => i.consumed) ≠ [])
    (hcnt : ∀ i ∈ r.inputs.filter (fun i => i.consumed), 1 ≤ i.count)
    (hnd : ((r.inputs.filter (fun i => i.consumed)).map
        (fun i => i.entity)).Nodup) :
    process_rule_interferon_effects r (ruleChanges r (k : ℤ))
      = pyRound2 ((k : ℚ) * r.interferon_amount.getD 0) := by
  unfold process_rule_interferon_effects
  rw [if_neg (not_le.mpr hamt)]
  rw [estimate_of_ruleChanges r k hk hcons hcnt hnd]
  norm_num

/-- Witness for C4: a rule consuming 2 `A` per application with interferon
amount 0.3, applied 3 times, accrues `round(3 * 0.3, 2) = 0.9`. -/
theorem c4_witness :
    process_rule_interferon_effects
        ⟨"f", "per_entity", [⟨"A", 2, true⟩], [⟨"B", 1⟩], 1, some (3/10)⟩
        (ruleChanges
          ⟨"f", "per_entity", [⟨"A", 2, true⟩], [⟨"B", 1⟩], 1, some (3/10)⟩
          ((3 : ℕ) : ℤ))
      = pyRound2 (((3 : ℕ) : ℚ) * (Option.some ((3 : ℚ)/10)).getD 0) ∧
    pyRound2 (((3 : ℕ) : ℚ) * (Option.some ((3 : ℚ)/10)).getD 0) = 9/10 :=
  ⟨c4_interferon_accrual_formula
      ⟨"f", "per_entity", [⟨"A", 2, true⟩], [⟨"B", 1⟩], 1, some (3/10)⟩ 3
      (by norm_num) (by norm_num) (by decide) (by decide) (by decide),
   by norm_num [pyRound2, roundHalfEven]⟩

end ViralSim

namespace ViralSim

theorem ruleChanges_filter_consumed (r : Rule) (k : ℤ) :
    (ruleChanges r k).filter (fun ch => ch.ctype = ChangeType.consumed)
      = (r.inputs.filter (fun i => i.consumed)).map
          (fun i => ⟨ChangeType.consumed, i.entity, k * i.count, r.name⟩) := by
  simp [ruleChanges, List.filter_map, Function.comp]

theorem ruleChanges_filter_degraded (r : Rule) (k : ℤ) :
    (ruleChanges r k).filter (fun ch => ch.ctype = ChangeType.degraded) = [] := by
  simp [ruleChanges, List.filter_map, Function.comp]

theorem foldl_changeStep_skip (t : ChangeType) :
    ∀ (cs : List Change) (acc : Dict × Bool),
      (∀ ch ∈ cs, ch.ctype ≠ t) → cs.foldl (changeStep t) acc = acc := by
  intro cs
  induction cs with
  | nil => intro acc _; rfl
  | cons ch rest ih =>
    intro acc h
    rw [List.foldl_cons]
    have hch : changeStep t acc ch = acc := by
      unfold changeStep
      rw [if_neg (h ch (List.mem_cons_self ch rest))]
    rw [hch]
    exact ih acc (fun c hc => h c (List.mem_cons_of_mem ch hc))

theorem foldl_changeStep_filter (t : ChangeType) :
    ∀ (cs : List Change) (acc : Dict × Bool),
      cs.foldl (changeStep t) acc
        = (cs.filter (fun ch => ch.ctype = t)).foldl (changeStep t) acc := by
  intro cs
  induction cs with
  | nil => intro acc; rfl
  | cons ch rest ih =>
    intro acc
    by_cases h : ch.ctype = t
    · simp only [List.foldl_cons, List.filter_cons, decide_eq_true h, if_pos rfl]
      exact ih (changeStep t acc ch)
    · have hskip : changeStep t acc ch = acc := by
        unfold changeStep
        rw [if_neg h]
      simp only [List.foldl_cons, List.filter_cons, hskip]
      rw [if_neg (by simpa using h)]
      exact ih acc

theorem applyChangesOfType_filter (t : ChangeType) (w : Dict) (cs : List Change) :
    applyChangesOfType t w cs
      = applyChangesOfType t w (cs.filter (fun ch => ch.ctype = t)) := by
  unfold applyChangesOfType
  exact foldl_changeStep_filter t cs (w, false)

theorem apply_rule_congr (g : ℕ → ℚ) (r1 r2 : Rule) (st : Dict) (s : ℕ)
    (hin : r2.inputs = r1.inputs) (hty : r2.rule_type = r1.rule_type)
    (hp : r2.probability = r1.probability) (hn : r2.name = r1.name) :
    (apply_rule_to_state g r2 st s).2 = (apply_rule_to_state g r1 st s).2 ∧
    (apply_rule_to_state g r2 st s).1.filter
        (fun ch => ch.ctype = ChangeType.consumed)
      = (apply_rule_to_state g r1 st s).1.filter
          (fun ch => ch.ctype = ChangeType.consumed) ∧
    (apply_rule_to_state g r2 st s).1.filter
        (fun ch => ch.ctype = ChangeType.degraded)
      = (apply_rule_to_state g r1 st s).1.filter
          (fun ch => ch.ctype = ChangeType.degraded) ∧
    (∀ w : Dict, applyChangesOfType ChangeType.consumed w
        (apply_rule_to_state g r2 st s).1
      = applyChangesOfType ChangeType.consumed w
          (apply_rule_to_state g r1 st s).1) := by
  obtain ⟨n1, t1, i1, o1, p1, a1⟩ := r1
  obtain ⟨n2, t2, i2, o2, p2, a2⟩ := r2
  simp only at hin hty hp hn
  subst hin
  subst hty
  subst hp
  subst hn
  have hmax : get_max_applications_from_state ⟨n2, t2, i2, o2, p2, a2⟩ st
      = get_max_applications_from_state ⟨n2, t2, i2, o1, p2, a1⟩ st := rfl
  have htrial : ∀ n, ruleTrialResult g ⟨n2, t2, i2, o2, p2, a2⟩ n s
      = ruleTrialResult g ⟨n2, t2, i2, o1, p2, a1⟩ n s := fun n => rfl
  unfold apply_rule_to_state
  simp only []
  rw [hmax, htrial]
  split_ifs <;>
    refine ⟨rfl, ?_, ?_, ?_⟩ <;>
    first
      | rfl
      | (intro w; rfl)
      | rw [ruleChanges_filter_consumed, ruleChanges_filter_consumed]
      | rw [ruleChanges_filter_degraded, ruleChanges_filter_degraded]
      | (intro w
         rw [applyChangesOfType_filter, ruleChanges_filter_consumed,
             applyChangesOfType_filter ChangeType.consumed w (ruleChanges _ _),
             ruleChanges_filter_consumed])

theorem ruleLoop_append (g : ℕ → ℚ) (xs ys : List Rule) (ls : LoopState) :
    ruleLoop g (xs ++ ys) ls = ruleLoop g ys (ruleLoop g xs ls) := by
  unfold ruleLoop
  exact List.foldl_append _ _ xs ys

theorem ruleStep_congr_state (g : ℕ → ℚ) (r : Rule) (s t : LoopState)
    (hw : s.working = t.working) (hp : s.pos = t.pos) (hn : s.neg = t.neg)
    (hc : s.changes.filter (fun ch => ch.ctype = ChangeType.consumed)
        = t.changes.filter (fun ch => ch.ctype = ChangeType.consumed))
    (hd : s.changes.filter (fun ch => ch.ctype = ChangeType.degraded)
        = t.changes.filter (fun ch => ch.ctype = ChangeType.degraded)) :
    (ruleStep g s r).working = (ruleStep g t r).working ∧
    (ruleStep g s r).pos = (ruleStep g t r).pos ∧
    (ruleStep g s r).neg = (ruleStep g t r).neg ∧
    (ruleStep g s r).changes.filter (fun ch => ch.ctype = ChangeType.consumed)
      = (ruleStep g t r).changes.filter (fun ch => ch.ctype = ChangeType.consumed) ∧
    (ruleStep g s r).changes.filter (fun ch => ch.ctype = ChangeType.degraded)
      = (ruleStep g t r).changes.filter (fun ch => ch.ctype = ChangeType.degraded) := by
  unfold ruleStep
  simp only []
  rw [hw, hp, hn]
  refine ⟨rfl, rfl, rfl, ?_, ?_⟩
  · rw [List.filter_append, List.filter_append, hc]
  · rw [List.filter_append, List.filter_append, hd]

theorem ruleStep_outputs (g : ℕ → ℚ) (r : Rule) (o' : List OutputSpec)
    (ls : LoopState) :
    (ruleStep g ls { r with outputs := o' }).working = (ruleStep g ls r).working ∧
    (ruleStep g ls { r with outputs := o' }).pos = (ruleStep g ls r).pos ∧
    (ruleStep g ls { r with outputs := o' }).neg = (ruleStep g ls r).neg ∧
    (ruleStep g ls { r with outputs := o' }).changes.filter
        (fun ch => ch.ctype = ChangeType.consumed)
      = (ruleStep g ls r).changes.filter
          (fun ch => ch.ctype = ChangeType.consumed) ∧
    (ruleStep g ls { r with outputs := o' }).changes.filter
        (fun ch => ch.ctype = ChangeType.degraded)
      = (ruleStep g ls r).changes.filter
          (fun ch => ch.ctype = ChangeType.degraded) := by
  obtain ⟨h2, hcf, hdf, hact⟩ :=
    apply_rule_congr g r { r with outputs := o' } ls.working ls.pos rfl rfl rfl rfl
  unfold ruleStep
  simp only []
  refine ⟨?_, ?_, ?_, ?_, ?_⟩
  · rw [hact ls.working]
  · rw [h2]
  · rw [hact ls.working]
  · rw [List.filter_append, List.filter_append, hcf]
  · rw [List.filter_append, List.filter_append, hdf]

theorem ruleLoop_congr_state (g : ℕ → ℚ) :
    ∀ (rules : List Rule) (s t : LoopState),
      s.working = t.working → s.pos = t.pos → s.neg = t.neg →
      s.changes.filter (fun ch => ch.ctype = ChangeType.consumed)
        = t.changes.filter (fun ch => ch.ctype = ChangeType.consumed) →
      s.changes.filter (fun ch => ch.ctype = ChangeType.degraded)
        = t.changes.filter (fun ch => ch.ctype = ChangeType.degraded) →
      (ruleLoop g rules s).working = (ruleLoop g rules t).working ∧
      (ruleLoop g rules s).pos = (ruleLoop g rules t).pos ∧
      (ruleLoop g rules s).neg = (ruleLoop g rules t).neg ∧
      (ruleLoop g rules s).changes.filter (fun ch => ch.ctype = ChangeType.consumed)
        = (ruleLoop g rules t).changes.filter
            (fun ch => ch.ctype = ChangeType.consumed) ∧
      (ruleLoop g rules s).changes.filter (fun ch => ch.ctype = ChangeType.degraded)
        = (ruleLoop g rules t).changes.filter
            (fun ch => ch.ctype = ChangeType.degraded) := by
  intro rules
  induction rules with
  | nil => intro s t hw hp hn hc hd; exact ⟨hw, hp, hn, hc, hd⟩
  | cons r rest ih =>
    intro s t hw hp hn hc hd
    rw [ruleLoop, List.foldl_cons]
    rw [show ruleLoop g (r :: rest) t = ruleLoop g rest (ruleStep g t r) from
      by rw [ruleLoop, List.foldl_cons]; rfl]
    obtain ⟨hw2, hp2, hn2, hc2, hd2⟩ := ruleStep_congr_state g r s t hw hp hn hc hd
    exact ih (ruleStep g s r) (ruleStep g t r) hw2 hp2 hn2 hc2 hd2

/-- C10: within a single turn, outputs produced by a rule are never
available to later rules: replacing any one rule's output list changes
nothing about the turn except the produced records and the commit — the
random stream position, the ghost negativity flag, all Consumed records and
all Degraded records of the whole turn are identical, and the working
population that each subsequent rule sees (the `ruleLoop` working state,
which is debited for degraded and consumed amounts but never credited with
produced amounts) is identical. -/
theorem c10_produced_not_available_within_turn (g : ℕ → ℚ) (s0 : ℕ)
    (st : SimState) (rates : List (String × ℚ))
    (ec : Option (String → Option String)) (pre post : List Rule) (r : Rule)
    (o' : List OutputSpec) :
    (process_turn ⟨pre ++ { r with outputs := o' } :: post, rates, ec⟩ g s0 st).rng_pos
      = (process_turn ⟨pre ++ r :: post, rates, ec⟩ g s0 st).rng_pos ∧
    (process_turn ⟨pre ++ { r with outputs := o' } :: post, rates, ec⟩ g s0 st).neg_working
      = (process_turn ⟨pre ++ r :: post, rates, ec⟩ g s0 st).neg_working ∧
    (process_turn ⟨pre ++ { r with outputs := o' } :: post, rates, ec⟩ g s0 st).changes.filter
        (fun ch => ch.ctype = ChangeType.consumed)
      = (process_turn ⟨pre ++ r :: post, rates, ec⟩ g s0 st).changes.filter
          (fun ch => ch.ctype = ChangeType.consumed) ∧
    (process_turn ⟨pre ++ { r with outputs := o' } :: post, rates, ec⟩ g s0 st).changes.filter
        (fun ch => ch.ctype = ChangeType.degraded)
      = (process_turn ⟨pre ++ r :: post, rates, ec⟩ g s0 st).changes.filter
          (fun ch => ch.ctype = ChangeType.degraded) ∧
    (∀ ls : LoopState,
      (ruleLoop g ({ r with outputs := o' } :: post) ls).working
        = (ruleLoop g (r :: post) ls).working) := by
  have hmid : ∀ ls : LoopState,
      (ruleLoop g ({ r with outputs := o' } :: post) ls).working
        = (ruleLoop g (r :: post) ls).working ∧
      (ruleLoop g ({ r with outputs := o' } :: post) ls).pos
        = (ruleLoop g (r :: post) ls).pos ∧
      (ruleLoop g ({ r with outputs := o' } :: post) ls).neg
        = (ruleLoop g (r :: post) ls).neg ∧
      (ruleLoop g ({ r with outputs := o' } :: post) ls).changes.filter
          (fun ch => ch.ctype = ChangeType.consumed)
        = (ruleLoop g (r :: post) ls).changes.filter
            (fun ch => ch.ctype = ChangeType.consumed) ∧
      (ruleLoop g ({ r with outputs := o' } :: post) ls).changes.filter
          (fun ch => ch.ctype = ChangeType.degraded)
        = (ruleLoop g (r :: post) ls).changes.filter
            (fun ch => ch.ctype = ChangeType.degraded) := by
    intro ls
    rw [show ruleLoop g ({ r with outputs := o' } :: post) ls
        = ruleLoop g post (ruleStep g ls { r with outputs := o' }) from by
      rw [ruleLoop, List.foldl_cons]; rfl]
    rw [show ruleLoop g (r :: post) ls
        = ruleLoop g post (ruleStep g ls r) from by
      rw [ruleLoop, List.foldl_cons]; rfl]
    obtain ⟨h1, h2, h3, h4, h5⟩ := ruleStep_outputs g r o' ls
    exact ruleLoop_congr_state g post _ _ h1 h2 h3 h4 h5
  have hfull : ∀ ls : LoopState,
      (ruleLoop g (pre ++ { r with outputs := o' } :: post) ls).working
        = (ruleLoop g (pre ++ r :: post) ls).working ∧
      (ruleLoop g (pre ++ { r with outputs := o' } :: post) ls).pos
        = (ruleLoop g (pre ++ r :: post) ls).pos ∧
      (ruleLoop g (pre ++ { r with outputs := o' } :: post) ls).neg
        = (ruleLoop g (pre ++ r :: post) ls).neg ∧
      (ruleLoop g (pre ++ { r with outputs := o' } :: post) ls).changes.filter
          (fun ch => ch.ctype = ChangeType.consumed)
        = (ruleLoop g (pre ++ r :: post) ls).changes.filter
            (fun ch => ch.ctype = ChangeType.consumed) ∧
      (ruleLoop g (pre ++ { r with outputs := o' } :: post) ls).changes.filter
          (fun ch => ch.ctype = ChangeType.degraded)
        = (ruleLoop g (pre ++ r :: post) ls).changes.filter
            (fun ch => ch.ctype = ChangeType.degraded) := by
    intro ls
    rw [ruleLoop_append, ruleLoop_append]
    exact hmid (ruleLoop g pre ls)
  refine ⟨?_, ?_, ?_, ?_, fun ls => (hmid ls).1⟩
  · exact (hfull _).2.1
  · exact (hfull _).2.2.1
  · exact (hfull _).2.2.2.1
  · exact (hfull _).2.2.2.2

end ViralSim


namespace ViralSim

theorem alookup_eq_none_iff {α : Type} (k : String) (l : List (String × α)) :
    alookup k l = none ↔ k ∉ l.map Prod.fst := by
  induction l with
  | nil => simp [alookup]
  | cons p rest ih =>
    by_cases hk : p.1 = k
    · simp [alookup, hk]
    · simp [alookup, hk, ih, Ne.symm hk]

theorem alookup_map_update (d : Dict) (k k' : String) (v : ℤ) (hne : k' ≠ k) :
    alookup k' (d.map (fun p => if p.1 = k then (k, v) else p)) = alookup k' d := by
  have h2 : ¬ k = k' := fun h => hne h.symm
  induction d with
  | nil => rfl
  | cons p rest ih =>
    simp only [List.map_cons, alookup]
    by_cases ha : p.1 = k
    · simp [ha, h2, ih]
    · by_cases ha2 : p.1 = k'
      · simp [ha, ha2, hne]
      · simp [ha, ha2, ih]

theorem ddel_cons (p : String × ℤ) (rest : Dict) (k : String) :
    ddel (p :: rest) k = if p.1 = k then ddel rest k else p :: ddel rest k := by
  by_cases ha : p.1 = k <;> simp [ddel, List.filter_cons, ha]

theorem alookup_ddel_ne (d : Dict) (k k' : String) (hne : k' ≠ k) :
    alookup k' (ddel d k) = alookup k' d := by
  induction d with
  | nil => rfl
  | cons p rest ih =>
    rw [ddel_cons]
    by_cases ha : p.1 = k
    · rw [if_pos ha, ih]
      have hp2 : ¬ p.1 = k' := by
        rw [ha]
        exact fun h => hne h.symm
      simp [alookup, hp2]
    · rw [if_neg ha]
      simp only [alookup]
      by_cases hp2 : p.1 = k'
      · simp [hp2]
      · simp [hp2, ih]

theorem dget_dset_ne (d : Dict) (k k' : String) (v : ℤ) (hne : k' ≠ k) :
    dget (dset d k v) k' = dget d k' := by
  unfold dget dset
  by_cases hk : (alookup k d).isSome
  · rw [if_pos hk, alookup_map_update d k k' v hne]
  · rw [if_neg hk, alookup_append]
    cases h : alookup k' d with
    | some v' => rfl
    | none =>
      have h2 : ¬ k = k' := fun h => hne h.symm
      simp [alookup, h2]

theorem dget_ddel_ne (d : Dict) (k k' : String) (hne : k' ≠ k) :
    dget (ddel d k) k' = dget d k' := by
  unfold dget
  rw [alookup_ddel_ne d k k' hne]

theorem dset_keys (d : Dict) (k : String) (v : ℤ)
    (hk : (alookup k d).isSome) :
    (dset d k v).map Prod.fst = d.map Prod.fst := by
  unfold dset
  rw [if_pos hk, List.map_map]
  apply List.map_congr_left
  intro p _
  by_cases hp : p.1 = k
  · simp [Function.comp, hp]
  · simp [Function.comp, hp]

theorem PosDict_ddel (d : Dict) (k : String) (h : PosDict d) :
    PosDict (ddel d k) := by
  obtain ⟨hv, hn⟩ := h
  constructor
  · intro p hp
    exact hv p (List.mem_of_mem_filter hp)
  · exact hn.sublist (List.Sublist.map _ (List.filter_sublist d))

theorem PosDict_dset_pos (d : Dict) (k : String) (v : ℤ) (h : PosDict d)
    (hv : 0 < v) : PosDict (dset d k v) := by
  obtain ⟨hval, hn⟩ := h
  by_cases hk : (alookup k d).isSome
  · constructor
    · intro p hp
      unfold dset at hp
      rw [if_pos hk] at hp
      rcases List.mem_map.mp hp with ⟨q, hq, rfl⟩
      by_cases hq1 : q.1 = k
      · simpa [hq1] using hv
      · simpa [hq1] using hval q hq
    · rw [dset_keys d k v hk]
      exact hn
  · have hkn : k ∉ d.map Prod.fst := by
      apply (alookup_eq_none_iff k d).mp
      exact Option.not_isSome_iff_eq_none.mp hk
    unfold dset
    rw [if_neg hk]
    constructor
    · intro p hp
      rcases List.mem_append.mp hp with hp1 | hp2
      · exact hval p hp1
      · have hpkv : p = (k, v) := by simpa using hp2
        rw [hpkv]
        exact hv
    · rw [List.map_append]
      simp only [List.map_cons, List.map_nil]
      apply List.Nodup.append hn (List.nodup_singleton k)
      intro x hx hx2
      have hxk : x = k := by simpa using hx2
      subst hxk
      exact hkn hx

theorem dget_pos_of_isSome (d : Dict) (k : String) (h : PosDict d)
    (hk : (alookup k d).isSome) : 0 < dget d k := by
  unfold dget
  cases hl : alookup k d with
  | none =>
    rw [hl] at hk
    simp at hk
  | some v => simpa using h.1 (k, v) (alookup_mem k d v hl)

theorem subDelStep_posdict (d : Dict) (k : String) (c : ℤ) (h : PosDict d) :
    PosDict (subDelStep d k c).1 := by
  unfold subDelStep
  simp only []
  split_ifs with hv
  · exact PosDict_ddel d k h
  · exact PosDict_dset_pos d k _ h (by omega)

theorem subDelStep_flag_false (d : Dict) (k : String) (c : ℤ)
    (h : 0 ≤ dget d k - c) : (subDelStep d k c).2 = false := by
  unfold subDelStep
  simp only []
  simpa using not_lt.mpr h

theorem subDelStep_dget_ne (d : Dict) (k k' : String) (c : ℤ) (hne : k' ≠ k) :
    dget (subDelStep d k c).1 k' = dget d k' := by
  unfold subDelStep
  simp only []
  split_ifs with hv
  · exact dget_ddel_ne d k k' hne
  · exact dget_dset_ne d k k' _ hne

end ViralSim

namespace ViralSim

theorem foldl_changeStep_posdict (t : ChangeType) :
    ∀ (cs : List Change) (w : Dict) (b : Bool), PosDict w →
      PosDict (cs.foldl (changeStep t) (w, b)).1 := by
  intro cs
  induction cs with
  | nil => intro w b h; exact h
  | cons ch rest ih =>
    intro w b h
    rw [List.foldl_cons]
    by_cases hc : ch.ctype = t
    · have hstep : changeStep t (w, b) ch
          = ((subDelStep w ch.entity ch.count).1,
             b || (subDelStep w ch.entity ch.count).2) := by
        unfold changeStep
        rw [if_pos hc]
      rw [hstep]
      exact ih _ _ (subDelStep_posdict w ch.entity ch.count h)
    · have hstep : changeStep t (w, b) ch = (w, b) := by
        unfold changeStep
        rw [if_neg hc]
      rw [hstep]
      exact ih w b h

theorem foldl_changeStep_noneg (t : ChangeType) :
    ∀ (cs : List Change) (w : Dict) (b : Bool),
      ((cs.filter (fun ch => ch.ctype = t)).map (fun ch => ch.entity)).Nodup →
      (∀ ch ∈ cs, ch.ctype = t → ch.count ≤ dget w ch.entity) →
      (cs.foldl (changeStep t) (w, b)).2 = b := by
  intro cs
  induction cs with
  | nil => intro w b _ _; rfl
  | cons ch rest ih =>
    intro w b hnd hle
    rw [List.foldl_cons]
    by_cases hc : ch.ctype = t
    · have hflag : (subDelStep w ch.entity ch.count).2 = false :=
        subDelStep_flag_false w ch.entity ch.count
          (by have := hle ch (List.mem_cons_self ch rest) hc; omega)
      have hstep : changeStep t (w, b) ch
          = ((subDelStep w ch.entity ch.count).1, b) := by
        unfold changeStep
        rw [if_pos hc]
        simp [hflag]
      rw [hstep]
      rw [List.filter_cons, decide_eq_true hc, if_pos rfl, List.map_cons,
          List.nodup_cons] at hnd
      apply ih _ b hnd.2
      intro c hcm hct
      have hcf : c.entity ∈ (rest.filter (fun x => x.ctype = t)).map
          (fun x => x.entity) :=
        List.mem_map_of_mem _ (List.mem_filter.mpr ⟨hcm, decide_eq_true hct⟩)
      have hne : c.entity ≠ ch.entity := by
        intro he
        rw [he] at hcf
        exact hnd.1 hcf
      rw [subDelStep_dget_ne w ch.entity c.entity ch.count hne]
      exact hle c (List.mem_cons_of_mem ch hcm) hct
    · have hstep : changeStep t (w, b) ch = (w, b) := by
        unfold changeStep
        rw [if_neg hc]
      rw [hstep]
      rw [List.filter_cons] at hnd
      rw [if_neg (by simpa using hc)] at hnd
      exact ih w b hnd (fun c hcm hct => hle c (List.mem_cons_of_mem ch hcm) hct)

theorem maxAppsAux_bound (st : Dict) (hst : ∀ e, 0 ≤ dget st e) :
    ∀ (inputs : List InputSpec) (acc : Option ℤ),
      (∀ i ∈ inputs, 1 ≤ i.count) →
      (∀ a, acc = some a → 0 ≤ a) →
      (0 ≤ maxAppsAux st inputs acc ∧
       (∀ i ∈ inputs, maxAppsAux st inputs acc * i.count ≤ dget st i.entity) ∧
       (∀ a, acc = some a → maxAppsAux st inputs acc ≤ a)) := by
  intro inputs
  induction inputs with
  | nil =>
    intro acc _ hacc
    cases acc with
    | none =>
      exact ⟨le_refl 0, fun i hi => absurd hi (List.not_mem_nil i),
             fun a ha => nomatch ha⟩
    | some a =>
      refine ⟨hacc a rfl, fun i hi => absurd hi (List.not_mem_nil i), ?_⟩
      intro a' ha'
      have ha2 : a = a' := by injection ha'
      exact le_of_eq ha2
  | cons i rest ih =>
    intro acc hcnt hacc
    have hc : (1 : ℤ) ≤ i.count := hcnt i (List.mem_cons_self _ _)
    by_cases hlt : dget st i.entity < i.count
    · have hres : maxAppsAux st (i :: rest) acc = 0 := by
        simp only [maxAppsAux, if_pos hlt]
      rw [hres]
      refine ⟨le_refl 0, ?_, fun a _ => hacc a (by assumption)⟩
      intro j _
      rw [zero_mul]
      exact hst j.entity
    · have hq : 0 ≤ Int.fdiv (dget st i.entity) i.count :=
        Int.fdiv_nonneg (hst i.entity) (by omega)
      have hqc : Int.fdiv (dget st i.entity) i.count * i.count
          ≤ dget st i.entity := by
        rw [Int.fdiv_eq_ediv _ (by omega : (0:ℤ) ≤ i.count)]
        exact Int.ediv_mul_le _ (by omega)
      cases acc with
      | none =>
        have hres : maxAppsAux st (i :: rest) none
            = maxAppsAux st rest (some (Int.fdiv (dget st i.entity) i.count)) := by
          simp only [maxAppsAux, if_neg hlt, ite_self]
        obtain ⟨ih1, ih2, ih3⟩ := ih (some (Int.fdiv (dget st i.entity) i.count))
          (fun j hj => hcnt j (List.mem_cons_of_mem i hj))
          (fun a ha => by
            have h2 : Int.fdiv (dget st i.entity) i.count = a := by injection ha
            rw [← h2]
            exact hq)
        rw [hres]
        refine ⟨ih1, ?_, fun a ha => nomatch ha⟩
        intro j hj
        rcases List.mem_cons.mp hj with rfl | hj2
        · exact le_trans
            (mul_le_mul_of_nonneg_right (ih3 _ rfl) (by omega)) hqc
        · exact ih2 j hj2
      | some m =>
        have hm : 0 ≤ m := hacc m rfl
        have hres : maxAppsAux st (i :: rest) (some m)
            = maxAppsAux st rest
                (some (min m (Int.fdiv (dget st i.entity) i.count))) := by
          simp only [maxAppsAux, if_neg hlt, ite_self]
        obtain ⟨ih1, ih2, ih3⟩ :=
          ih (some (min m (Int.fdiv (dget st i.entity) i.count)))
          (fun j hj => hcnt j (List.mem_cons_of_mem i hj))
          (fun a ha => by
            have h2 : min m (Int.fdiv (dget st i.entity) i.count) = a := by
              injection ha
            rw [← h2]
            exact le_min hm hq)
        rw [hres]
        refine ⟨ih1, ?_, ?_⟩
        · intro j hj
          rcases List.mem_cons.mp hj with rfl | hj2
          · have h1 : maxAppsAux st rest
                (some (min m (Int.fdiv (dget st j.entity) j.count)))
                ≤ min m (Int.fdiv (dget st j.entity) j.count) := ih3 _ rfl
            have h2 := le_trans h1 (min_le_right m (Int.fdiv (dget st j.entity) j.count))
            exact le_trans (mul_le_mul_of_nonneg_right h2 (by omega)) hqc
          · exact ih2 j hj2
        · intro a ha
          have ha2 : m = a := by injection ha
          have h1 := ih3 _ rfl
          have h2 : min m (Int.fdiv (dget st i.entity) i.count) ≤ m :=
            min_le_left _ _
          rw [← ha2]
          exact le_trans h1 h2

end ViralSim

namespace ViralSim

theorem get_max_bound (r : Rule) (st : Dict) (hst : ∀ e, 0 ≤ dget st e)
    (hcnt : ∀ i ∈ r.inputs, 1 ≤ i.count) :
    0 ≤ get_max_applications_from_state r st ∧
    ∀ i ∈ r.inputs,
      get_max_applications_from_state r st * i.count ≤ dget st i.entity := by
  obtain ⟨h1, h2, _⟩ :=
    maxAppsAux_bound st hst r.inputs none hcnt (fun a ha => nomatch ha)
  exact ⟨h1, h2⟩

theorem ruleTrialResult_le (g : ℕ → ℚ) (r : Rule) (n s : ℕ) :
    (ruleTrialResult g r n s).1 ≤ n := by
  unfold ruleTrialResult
  split_ifs <;> simp [countSuccesses_le]

theorem apply_rule_changes_bound (g : ℕ → ℚ) (r : Rule) (st : Dict) (s : ℕ)
    (hst : ∀ e, 0 ≤ dget st e) (hwf : WellFormedRule r) :
    (((apply_rule_to_state g r st s).1.filter
        (fun ch => ch.ctype = ChangeType.consumed)).map
          (fun ch => ch.entity)).Nodup ∧
    (∀ ch ∈ (apply_rule_to_state g r st s).1,
        ch.ctype = ChangeType.consumed → ch.count ≤ dget st ch.entity) ∧
    (∀ ch ∈ (apply_rule_to_state g r st s).1,
        ch.ctype = ChangeType.produced → 1 ≤ ch.count) := by
  obtain ⟨hwf1, hwf2, hwf3⟩ := hwf
  unfold apply_rule_to_state
  simp only []
  by_cases hm : get_max_applications_from_state r st = 0
  · rw [if_pos hm]
    exact ⟨by simp, by simp, by simp⟩
  · rw [if_neg hm]
    by_cases ha : (ruleTrialResult g r
        (get_max_applications_from_state r st).toNat s).1 = 0
    · rw [if_pos ha]
      exact ⟨by simp, by simp, by simp⟩
    · rw [if_neg ha]
      simp only []
      obtain ⟨hm0, hmle⟩ := get_max_bound r st hst hwf1
      have h1 : (ruleTrialResult g r
          (get_max_applications_from_state r st).toNat s).1
          ≤ (get_max_applications_from_state r st).toNat :=
        ruleTrialResult_le g r _ s
      have hkm : (((ruleTrialResult g r
          (get_max_applications_from_state r st).toNat s).1 : ℕ) : ℤ)
          ≤ get_max_applications_from_state r st := by
        omega
      have hk1 : 1 ≤ (ruleTrialResult g r
          (get_max_applications_from_state r st).toNat s).1 :=
        Nat.one_le_iff_ne_zero.mpr ha
      refine ⟨?_, ?_, ?_⟩
      · rw [ruleChanges_filter_consumed]
        simpa [List.map_map, Function.comp] using hwf2
      · intro ch hch hct
        unfold ruleChanges at hch
        rcases List.mem_append.mp hch with hh | hh
        · rcases List.mem_map.mp hh with ⟨i, hi, rfl⟩
          have hii : i ∈ r.inputs := List.mem_of_mem_filter hi
          have hic : (1:ℤ) ≤ i.count := hwf1 i hii
          show (((ruleTrialResult g r
              (get_max_applications_from_state r st).toNat s).1 : ℕ) : ℤ)
              * i.count ≤ dget st i.entity
          calc (((ruleTrialResult g r
              (get_max_applications_from_state r st).toNat s).1 : ℕ) : ℤ)
              * i.count
              ≤ get_max_applications_from_state r st * i.count :=
                mul_le_mul_of_nonneg_right hkm (by omega)
            _ ≤ dget st i.entity := hmle i hii
        · rcases List.mem_map.mp hh with ⟨o, ho, rfl⟩
          exact absurd hct (by simp)
      · intro ch hch hct
        unfold ruleChanges at hch
        rcases List.mem_append.mp hch with hh | hh
        · rcases List.mem_map.mp hh with ⟨i, hi, rfl⟩
          exact absurd hct (by simp)
        · rcases List.mem_map.mp hh with ⟨o, ho, rfl⟩
          have hoc : (1:ℤ) ≤ o.count := hwf3 o ho
          have hkz : (1:ℤ) ≤ (((ruleTrialResult g r
              (get_max_applications_from_state r st).toNat s).1 : ℕ) : ℤ) := by
            omega
          show (1:ℤ) ≤ (((ruleTrialResult g r
              (get_max_applications_from_state r st).toNat s).1 : ℕ) : ℤ) * o.count
          calc (1:ℤ) = 1 * 1 := by ring
            _ ≤ _ := mul_le_mul hkz hoc (by omega) (by omega)

theorem ruleLoop_inv (g : ℕ → ℚ) :
    ∀ (rules : List Rule) (ls : LoopState),
      (∀ r ∈ rules, WellFormedRule r) → PosDict ls.working → ls.neg = false →
      (∀ ch ∈ ls.changes, ch.ctype = ChangeType.produced → 1 ≤ ch.count) →
      (PosDict (ruleLoop g rules ls).working ∧
       (ruleLoop g rules ls).neg = false ∧
       (∀ ch ∈ (ruleLoop g rules ls).changes,
          ch.ctype = ChangeType.produced → 1 ≤ ch.count)) := by
  intro rules
  induction rules with
  | nil => intro ls _ h1 h2 h3; exact ⟨h1, h2, h3⟩
  | cons r rest ih =>
    intro ls hwf hw hn hc
    rw [ruleLoop, List.foldl_cons]
    have hstnn : ∀ e, 0 ≤ dget ls.working e := by
      intro e
      unfold dget
      cases hl : alookup e ls.working with
      | none => simp
      | some v =>
        have := hw.1 (e, v) (alookup_mem e ls.working v hl)
        simpa using le_of_lt this
    obtain ⟨hb1, hb2, hb3⟩ := apply_rule_changes_bound g r ls.working ls.pos
      hstnn (hwf r (List.mem_cons_self r rest))
    have hupd : (applyChangesOfType ChangeType.consumed ls.working
        (apply_rule_to_state g r ls.working ls.pos).1).2 = false :=
      foldl_changeStep_noneg ChangeType.consumed _ ls.working false hb1
        (fun ch hch hct => hb2 ch hch hct)
    have hupd1 : PosDict (applyChangesOfType ChangeType.consumed ls.working
        (apply_rule_to_state g r ls.working ls.pos).1).1 :=
      foldl_changeStep_posdict ChangeType.consumed _ ls.working false hw
    apply ih (ruleStep g ls r)
    · exact fun r2 h2 => hwf r2 (List.mem_cons_of_mem r h2)
    · exact hupd1
    · show (ls.neg || (applyChangesOfType ChangeType.consumed ls.working
          (apply_rule_to_state g r ls.working ls.pos).1).2) = false
      rw [hn, hupd, Bool.or_false]
    · intro ch hch hct
      rcases List.mem_append.mp hch with hh | hh
      · exact hc ch hh hct
      · exact hb3 ch hh hct

end ViralSim

namespace ViralSim

theorem dget_cons_ne (e : String) (cnt : ℤ) (rest : Dict) (k : String)
    (hne : k ≠ e) : dget ((e, cnt) :: rest) k = dget rest k := by
  simp [dget, alookup, Ne.symm hne]

theorem dget_cons_self (e : String) (cnt : ℤ) (rest : Dict) :
    dget ((e, cnt) :: rest) e = cnt := by
  simp [dget, alookup]

theorem degradeEntry_cases (rates : List (String × ℚ))
    (ec : Option (String → Option String)) (level : ℚ) (g : ℕ → ℚ)
    (e : String) (cnt : ℤ) (s : ℕ) :
    (degradeEntry rates ec level g e cnt s).1 = none ∨
    ∃ d : ℕ, (degradeEntry rates ec level g e cnt s).1
        = some ⟨ChangeType.degraded, e, (d : ℤ), "Natural degradation"⟩ ∧
      (d : ℤ) ≤ cnt := by
  simp only [degradeEntry]
  split_ifs with h1 h2 h3
  · exact Or.inl rfl
  · exact Or.inl rfl
  · right
    refine ⟨countSuccesses g s cnt.toNat _, rfl, ?_⟩
    have := countSuccesses_le g s cnt.toNat
      (min 1 ((alookup e rates).getD DEFAULT_DEGRADATION_RATE
        * (1 + interferonBonus ec level e)))
    omega
  · exact Or.inl rfl

theorem apply_degradation_bound (rates : List (String × ℚ))
    (ec : Option (String → Option String)) (level : ℚ) (g : ℕ → ℚ) :
    ∀ (l : Dict) (s : ℕ), (l.map Prod.fst).Nodup →
      ((∀ ch ∈ (apply_degradation rates ec level g l s).1,
          ch.ctype = ChangeType.degraded) ∧
       (∀ ch ∈ (apply_degradation rates ec level g l s).1,
          ch.entity ∈ l.map Prod.fst) ∧
       (((apply_degradation rates ec level g l s).1.map
          (fun ch => ch.entity)).Nodup) ∧
       (∀ ch ∈ (apply_degradation rates ec level g l s).1,
          ch.count ≤ dget l ch.entity)) := by
  intro l
  induction l with
  | nil =>
    intro s _
    refine ⟨?_, ?_, ?_, ?_⟩ <;> simp [apply_degradation]
  | cons p rest ih =>
    intro s hnd
    obtain ⟨e, cnt⟩ := p
    rw [List.map_cons, List.nodup_cons] at hnd
    have heq : apply_degradation rates ec level g ((e, cnt) :: rest) s
        = ((degradeEntry rates ec level g e cnt s).1.toList
            ++ (apply_degradation rates ec level g rest
                (degradeEntry rates ec level g e cnt s).2).1,
           (apply_degradation rates ec level g rest
                (degradeEntry rates ec level g e cnt s).2).2) := rfl
    obtain ⟨ih1, ih2, ih3, ih4⟩ :=
      ih (degradeEntry rates ec level g e cnt s).2 hnd.2
    rcases degradeEntry_cases rates ec level g e cnt s with hcase | ⟨d, hcase, hd⟩
    · rw [heq, hcase]
      simp only [Option.toList_none, List.nil_append]
      refine ⟨ih1, fun ch hch => List.mem_cons_of_mem _ (ih2 ch hch), ih3, ?_⟩
      intro ch hch
      have hmem := ih2 ch hch
      have hne : ch.entity ≠ e := fun h => hnd.1 (h ▸ hmem)
      rw [dget_cons_ne e cnt rest ch.entity hne]
      exact ih4 ch hch
    · rw [heq, hcase]
      simp only [Option.toList_some, List.singleton_append]
      refine ⟨?_, ?_, ?_, ?_⟩
      · intro ch hch
        rcases List.mem_cons.mp hch with rfl | hh
        · rfl
        · exact ih1 ch hh
      · intro ch hch
        rcases List.mem_cons.mp hch with rfl | hh
        · exact List.mem_cons_self e _
        · exact List.mem_cons_of_mem _ (ih2 ch hh)
      · simp only [List.map_cons]
        rw [List.nodup_cons]
        refine ⟨?_, ih3⟩
        intro hmem
        rcases List.mem_map.mp hmem with ⟨ch, hch, hche⟩
        have hin := ih2 ch hch
        rw [hche] at hin
        exact hnd.1 hin
      · intro ch hch
        rcases List.mem_cons.mp hch with rfl | hh
        · show (d : ℤ) ≤ dget ((e, cnt) :: rest) e
          rw [dget_cons_self]
          exact hd
        · have hmem := ih2 ch hh
          have hne : ch.entity ≠ e := fun h => hnd.1 (h ▸ hmem)
          rw [dget_cons_ne e cnt rest ch.entity hne]
          exact ih4 ch hh

theorem commitSub_posdict (d : Dict) (k : String) (c : ℤ) (h : PosDict d) :
    PosDict (commitSub d k c) := by
  simp only [commitSub]
  split_ifs with h1 h2
  · exact PosDict_ddel d k h
  · exact PosDict_dset_pos d k _ h (by omega)
  · exact h

theorem foldl_commitSub_posdict :
    ∀ (ps : List (String × ℤ)) (d : Dict), PosDict d →
      PosDict (ps.foldl (fun d p => commitSub d p.1 p.2) d) := by
  intro ps
  induction ps with
  | nil => intro d h; exact h
  | cons p rest ih =>
    intro d h
    rw [List.foldl_cons]
    exact ih _ (commitSub_posdict d p.1 p.2 h)

theorem commitAdd_posdict (d : Dict) (k : String) (c : ℤ) (h : PosDict d)
    (hc : 1 ≤ c) : PosDict (commitAdd d k c) := by
  unfold commitAdd
  split_ifs with h1
  · apply PosDict_dset_pos d k _ h
    have := dget_pos_of_isSome d k h h1
    omega
  · have heq : d ++ [(k, c)] = dset d k c := by
      unfold dset
      rw [if_neg h1]
    rw [heq]
    exact PosDict_dset_pos d k c h (by omega)

theorem foldl_commitAdd_posdict :
    ∀ (ps : List (String × ℤ)) (d : Dict), (∀ p ∈ ps, 1 ≤ p.2) → PosDict d →
      PosDict (ps.foldl (fun d p => commitAdd d p.1 p.2) d) := by
  intro ps
  induction ps with
  | nil => intro d _ h; exact h
  | cons p rest ih =>
    intro d hv h
    rw [List.foldl_cons]
    exact ih _ (fun q hq => hv q (List.mem_cons_of_mem p hq))
      (commitAdd_posdict d p.1 p.2 h (hv p (List.mem_cons_self p rest)))

theorem alAdd_ge_one (acc : List (String × ℤ)) (k : String) (c : ℤ)
    (hacc : ∀ p ∈ acc, 1 ≤ p.2) (hc : 1 ≤ c) :
    ∀ p ∈ alAdd acc k c, 1 ≤ p.2 := by
  unfold alAdd
  split_ifs with h1
  · intro p hp
    rcases List.mem_map.mp hp with ⟨q, hq, rfl⟩
    by_cases hq1 : q.1 = k
    · rw [if_pos hq1]
      have := hacc q hq
      simp only
      omega
    · rw [if_neg hq1]
      exact hacc q hq
  · intro p hp
    rcases List.mem_append.mp hp with hp1 | hp2
    · exact hacc p hp1
    · have : p = (k, c) := by simpa using hp2
      rw [this]
      exact hc

theorem foldl_aggStep_ge_one (t : ChangeType) :
    ∀ (cs : List Change) (acc : List (String × ℤ)),
      (∀ ch ∈ cs, ch.ctype = t → 1 ≤ ch.count) →
      (∀ p ∈ acc, 1 ≤ p.2) →
      ∀ p ∈ cs.foldl (aggStep t) acc, 1 ≤ p.2 := by
  intro cs
  induction cs with
  | nil => intro acc _ hacc; exact hacc
  | cons ch rest ih =>
    intro acc hcs hacc
    rw [List.foldl_cons]
    by_cases hc : ch.ctype = t
    · have hstep : aggStep t acc ch = alAdd acc ch.entity ch.count := by
        unfold aggStep
        rw [if_pos hc]
      rw [hstep]
      exact ih _ (fun c2 h2 => hcs c2 (List.mem_cons_of_mem ch h2))
        (alAdd_ge_one acc ch.entity ch.count hacc
          (hcs ch (List.mem_cons_self ch rest) hc))
    · have hstep : aggStep t acc ch = acc := by
        unfold aggStep
        rw [if_neg hc]
      rw [hstep]
      exact ih _ (fun c2 h2 => hcs c2 (List.mem_cons_of_mem ch h2)) hacc

theorem apply_all_changes_posdict (ents : Dict) (cs : List Change)
    (h : PosDict ents)
    (hp : ∀ ch ∈ cs, ch.ctype = ChangeType.produced → 1 ≤ ch.count) :
    PosDict (apply_all_changes ents cs) := by
  unfold apply_all_changes
  simp only []
  apply foldl_commitAdd_posdict
  · exact foldl_aggStep_ge_one ChangeType.produced cs [] hp (by simp)
  · exact foldl_commitSub_posdict _ _ (foldl_commitSub_posdict _ _ h)

end ViralSim

namespace ViralSim

theorem turn_inv (rules : List Rule) (rates : List (String × ℚ))
    (ec : Option (String → Option String)) (lvl : ℚ) (g : ℕ → ℚ) (s0 : ℕ)
    (ents : Dict) (hr : ∀ r ∈ rules, WellFormedRule r) (hst : PosDict ents) :
    (ruleLoop g rules
      ⟨(applyChangesOfType ChangeType.degraded ents
          (apply_degradation rates ec lvl g ents s0).1).1,
        (apply_degradation rates ec lvl g ents s0).1, 0,
        (apply_degradation rates ec lvl g ents s0).2,
        (applyChangesOfType ChangeType.degraded ents
          (apply_degradation rates ec lvl g ents s0).1).2⟩).neg = false ∧
    PosDict (apply_all_changes ents
      (ruleLoop g rules
        ⟨(applyChangesOfType ChangeType.degraded ents
            (apply_degradation rates ec lvl g ents s0).1).1,
          (apply_degradation rates ec lvl g ents s0).1, 0,
          (apply_degradation rates ec lvl g ents s0).2,
          (applyChangesOfType ChangeType.degraded ents
            (apply_degradation rates ec lvl g ents s0).1).2⟩).changes) := by
  obtain ⟨hd1, hd2, hd3, hd4⟩ :=
    apply_degradation_bound rates ec lvl g ents s0 hst.2
  have hw2 : (applyChangesOfType ChangeType.degraded ents
      (apply_degradation rates ec lvl g ents s0).1).2 = false := by
    apply foldl_changeStep_noneg
    · rw [List.filter_eq_self.mpr
        (fun ch hch => decide_eq_true (hd1 ch hch))]
      exact hd3
    · exact fun ch hch _ => hd4 ch hch
  have hw1 : PosDict (applyChangesOfType ChangeType.degraded ents
      (apply_degradation rates ec lvl g ents s0).1).1 :=
    foldl_changeStep_posdict ChangeType.degraded _ ents false hst
  obtain ⟨hl1, hl2, hl3⟩ := ruleLoop_inv g rules
    ⟨(applyChangesOfType ChangeType.degraded ents
        (apply_degradation rates ec lvl g ents s0).1).1,
      (apply_degradation rates ec lvl g ents s0).1, 0,
      (apply_degradation rates ec lvl g ents s0).2,
      (applyChangesOfType ChangeType.degraded ents
        (apply_degradation rates ec lvl g ents s0).1).2⟩
    hr hw1 hw2
    (by
      intro ch hch hct
      have := hd1 ch hch
      rw [this] at hct
      exact absurd hct (by decide))
  exact ⟨hl2, apply_all_changes_posdict ents _ hst hl3⟩

/-- C5 (amended): for rules satisfying the data model's invariants (input
and output counts ≥ 1 and consumed inputs naming pairwise distinct
entities) and a committed population with strictly positive counts and
unique keys, `process_turn` never produces a negative working-copy count at
any point (the ghost flag stays false) and the committed population again
maps every present entity id to a strictly positive count. -/
theorem c5_amended_nonneg (cfg : SimConfig) (g : ℕ → ℚ) (s0 : ℕ)
    (st : SimState) (hr : ∀ r ∈ cfg.transition_rules, WellFormedRule r)
    (hst : PosDict st.entities) :
    (process_turn cfg g s0 st).neg_working = false ∧
    (∀ p ∈ (process_turn cfg g s0 st).state.entities, 0 < p.2) := by
  obtain ⟨h1, h2⟩ := turn_inv cfg.transition_rules cfg.degradation_rates
    cfg.entity_class st.interferon_level g s0 st.entities hr hst
  exact ⟨h1, fun p hp => h2.1 p hp⟩

/-- C5 (counterexample to the claim as stated): with the rule `c5Rule`,
whose two consumed inputs both name entity `X` (1 and 2 units per
application), population `{X: 5}` and an all-succeeding random stream, the
rule applies twice and the working copy momentarily stores `X = -1` (3 − 4)
before removing it: a working-copy count does become negative
mid-computation. -/
theorem c5_counterexample :
    (process_turn c5Cfg (fun _ => 0) 0 c5State).neg_working = true := by
  have hc : countSuccesses (fun _ => 0) 0 2 1 = 2 :=
    countSuccesses_eq_of_all_lt (fun _ => 0) 0 2 1 (fun _ => by norm_num)
  simp [process_turn, apply_degradation, degradeEntry, interferonBonus,
        applyChangesOfType, changeStep, ruleLoop, ruleStep, apply_rule_to_state,
        ruleTrialResult, get_max_applications_from_state, maxAppsAux, dget,
        alookup, hc, ruleChanges, process_rule_interferon_effects,
        estimate_applications_from_changes, appsFromConsumed,
        estimateFromProduced, aggregateType, aggStep, alAdd, minList,
        subDelStep, ddel, dset, apply_all_changes, commitSub, commitAdd,
        c5Cfg, c5State, c5Rule, DEFAULT_DEGRADATION_RATE, INTERFERON_MIN,
        INTERFERON_MAX, INTERFERON_DECAY_PER_TURN]

/-- Witness for the amended C5 on the end-to-end scenario configuration. -/
theorem c5_witness :
    (process_turn c1Cfg (fun _ => 0) 0 c1Start).neg_working = false ∧
    (∀ p ∈ (process_turn c1Cfg (fun _ => 0) 0 c1Start).state.entities,
      0 < p.2) :=
  c5_amended_nonneg c1Cfg (fun _ => 0) 0 c1Start
    (by
      intro r hrm
      have : r = c1Rule := by simpa [c1Cfg, simConfigOf, c1Blueprint] using hrm
      rw [this]
      refine ⟨by decide, by decide, by decide⟩)
    (by constructor <;> decide)

end ViralSim
